import Mathlib

/-!
# Verification of the go-wal write-ahead log

A shallow embedding of the `wal` package (files `wal.go`, `wal_data.go` and
the checkpoint-aware record type) together with proofs about the claims of
the specification.

Bytes are modelled as `Nat` (values `< 256`), byte strings as `List Nat`.
Go's `int32` values are modelled as `Int` together with an explicit
wrap-around function `toInt32`; `byte(x)` conversions take the low 8 bits.
Go runtime panics (e.g. `make([]byte, n)` with negative `n`) are modelled
by a dedicated error constructor.
-/

set_option autoImplicit false
set_option maxRecDepth 100000

deriving instance DecidableEq for Except

namespace GoWal

/-- Two's-complement wrap of an integer into the `int32` range.  Models Go's
`int32` arithmetic (`lastSequenceNo += 1`, `int32(crc32.ChecksumIEEE ...)`). -/
def toInt32 (n : Int) : Int := (n + 2 ^ 31) % 2 ^ 32 - 2 ^ 31

/-- Go's `byte(x)` for a signed integer `x`: the low 8 bits of the
two's-complement representation. -/
def byteOfInt (n : Int) : Nat := (n % 256).toNat

/-- One shift-xor step of the reflected CRC-32 computation
(polynomial `0xEDB88320`). -/
def crc32Step (crc : Nat) : Nat :=
  if crc % 2 = 1 then (crc / 2) ^^^ 0xEDB88320 else crc / 2

/-- Process one byte of input into a running CRC-32 state. -/
def crc32Byte (crc b : Nat) : Nat :=
  crc32Step (crc32Step (crc32Step (crc32Step
    (crc32Step (crc32Step (crc32Step (crc32Step (crc ^^^ b % 256))))))))

/-- IEEE CRC-32 of a byte string, as computed by Go's
`crc32.ChecksumIEEE` (`hash/crc32` with the IEEE polynomial). -/
def crc32 (l : List Nat) : Nat :=
  (l.foldl crc32Byte 0xFFFFFFFF) ^^^ 0xFFFFFFFF

/-- Sanity check: the classic IEEE CRC-32 test vector `"123456789"`. -/
theorem crc32_test_vector :
    crc32 [49, 50, 51, 52, 53, 54, 55, 56, 57] = 0xCBF43926 := by decide

/-- A WAL record (`WalData` in `wal_data.go` / the checkpoint-aware variant):
sequence number, opaque payload, stored CRC, checkpoint marker.  `seq` and
`crc` are Go `int32` values, kept in `Int`. -/
structure WalData where
  seq : Int
  data : List Nat
  crc : Int
  checkpoint : Bool
deriving DecidableEq, Repr

/-- The Go zero value `&WalData{}` (`nil` byte slice modelled as `[]`). -/
def zeroWalData : WalData := ⟨0, [], 0, false⟩

/-- `NewWalData` from `wal_data.go`: stores the IEEE CRC-32 of
`data ++ [byte(seq)]`, reinterpreted as `int32`; the checkpoint flag is
`false`. -/
def NewWalData (sequenceNo : Int) (data : List Nat) : WalData :=
  { seq := sequenceNo
    data := data
    crc := toInt32 (crc32 (data ++ [byteOfInt sequenceNo]))
    checkpoint := false }

/-- `WalData.IsValid`: recompute the CRC over `data ++ [byte(seq)]` and
compare with the stored value. -/
def WalData.IsValid (w : WalData) : Bool :=
  w.crc == toInt32 (crc32 (w.data ++ [byteOfInt w.seq]))

/-- `WalData.IsCheckpoint` from the checkpoint-aware record type. -/
def WalData.IsCheckpoint (w : WalData) : Bool := w.checkpoint

/-- `WalData.GetData` accessor. -/
def WalData.GetData (w : WalData) : List Nat := w.data

/-- `WalData.GetLastSequence` accessor. -/
def WalData.GetLastSequence (w : WalData) : Int := w.seq

theorem NewWalData_IsValid (seq : Int) (data : List Nat) :
    (NewWalData seq data).IsValid = true := by
  simp [NewWalData, WalData.IsValid]

/-! ## Decimal integers

Go's `encoding/json` prints the `int32` fields `seq` and `crc` in decimal.
The printer is fuelled so that it reduces in the kernel. -/

/-- Little-endian base-10 digits of `n` (empty for `0`); `fuel ≥ n` makes the
result exact. -/
def digitsLE : Nat → Nat → List Nat
  | 0, _ => []
  | f + 1, n => if n = 0 then [] else n % 10 :: digitsLE f (n / 10)

/-- Value of a little-endian digit list. -/
def ofDigitsLE : List Nat → Nat
  | [] => 0
  | d :: ds => d + 10 * ofDigitsLE ds

theorem ofDigitsLE_digitsLE : ∀ (f n : Nat), n ≤ f → ofDigitsLE (digitsLE f n) = n := by
  intro f
  induction f with
  | zero => intro n h; interval_cases n; rfl
  | succ f ih =>
    intro n h
    by_cases h0 : n = 0
    · subst h0; simp [digitsLE, ofDigitsLE]
    · have hlt : n / 10 ≤ f := by
        have : n / 10 < n := Nat.div_lt_self (Nat.pos_of_ne_zero h0) (by norm_num)
        omega
      simp only [digitsLE, if_neg h0, ofDigitsLE, ih _ hlt]
      omega

theorem digitsLE_lt_ten : ∀ (f n d : Nat), d ∈ digitsLE f n → d < 10 := by
  intro f
  induction f with
  | zero => intro n d h; simp [digitsLE] at h
  | succ f ih =>
    intro n d h
    by_cases h0 : n = 0
    · subst h0; simp [digitsLE] at h
    · simp only [digitsLE, if_neg h0, List.mem_cons] at h
      rcases h with h | h
      · subst h; exact Nat.mod_lt _ (by norm_num)
      · exact ih _ _ h

theorem digitsLE_length_le : ∀ (f n k : Nat), n < 10 ^ k → (digitsLE f n).length ≤ k := by
  intro f
  induction f with
  | zero => intro n k _; simp [digitsLE]
  | succ f ih =>
    intro n k h
    by_cases h0 : n = 0
    · simp [h0, digitsLE]
    · have hk : k ≠ 0 := by
        rintro rfl
        simp only [pow_zero, Nat.lt_one_iff] at h
        exact h0 h
      obtain ⟨k', rfl⟩ := Nat.exists_eq_succ_of_ne_zero hk
      have : n / 10 < 10 ^ k' := by
        rw [Nat.div_lt_iff_lt_mul (by norm_num)]
        calc n < 10 ^ (k' + 1) := h
        _ = 10 ^ k' * 10 := by ring
      simp only [digitsLE, if_neg h0, List.length_cons]
      exact Nat.succ_le_succ (ih _ _ this)

/-- Decimal ASCII representation of a natural number, as Go prints it. -/
def natDec (n : Nat) : List Nat :=
  if n = 0 then [48] else ((digitsLE n n).map (· + 48)).reverse

/-- Decimal ASCII representation of an integer (minus sign for negatives). -/
def intDec (v : Int) : List Nat :=
  if v < 0 then 45 :: natDec (-v).toNat else natDec v.toNat

/-- Fold a big-endian ASCII digit list back into a natural number
(the action of a decimal parser). -/
def parseNat (l : List Nat) : Nat :=
  l.foldl (fun a c => a * 10 + (c - 48)) 0

/-- Decimal digit test for ASCII codes. -/
def isDigitByte (c : Nat) : Bool := 48 ≤ c && c < 58

/-- Parse an ASCII decimal natural; `none` unless the string is a nonempty
run of digits. -/
def parseNatOpt (l : List Nat) : Option Nat :=
  if l ≠ [] ∧ l.all isDigitByte then some (parseNat l) else none

/-- Parse an ASCII decimal integer with optional leading minus sign. -/
def parseIntOpt (l : List Nat) : Option Int :=
  if l.head? = some 45 then (parseNatOpt l.tail).map (fun n => -(n : Int))
  else (parseNatOpt l).map (fun n => (n : Int))

theorem parseNat_reverse_map :
    ∀ (ds : List Nat) (a : Nat),
      (((ds.map (· + 48)).reverse).foldl (fun a c => a * 10 + (c - 48)) a) =
        a * 10 ^ ds.length + ofDigitsLE ds := by
  intro ds
  induction ds with
  | nil => intro a; simp [ofDigitsLE]
  | cons d t ih =>
    intro a
    simp only [List.map_cons, List.reverse_cons, List.foldl_append, List.foldl_cons,
      List.foldl_nil, ih, ofDigitsLE, List.length_cons]
    have : d + 48 - 48 = d := by omega
    rw [this]
    ring

theorem parseNat_natDec (n : Nat) : parseNat (natDec n) = n := by
  by_cases h0 : n = 0
  · subst h0; rfl
  · simp only [natDec, if_neg h0, parseNat, parseNat_reverse_map,
      Nat.zero_mul, Nat.zero_add]
    exact ofDigitsLE_digitsLE n n le_rfl

theorem natDec_ne_nil (n : Nat) : natDec n ≠ [] := by
  by_cases h0 : n = 0
  · subst h0; simp [natDec]
  · simp only [natDec, if_neg h0]
    intro h
    rw [List.reverse_eq_nil_iff, List.map_eq_nil_iff] at h
    have := ofDigitsLE_digitsLE n n le_rfl
    rw [h] at this
    simp [ofDigitsLE] at this
    exact h0 this.symm

theorem natDec_all_digits (n : Nat) : ∀ c ∈ natDec n, 48 ≤ c ∧ c < 58 := by
  by_cases h0 : n = 0
  · subst h0; simp [natDec]
  · simp only [natDec, if_neg h0]
    intro c hc
    rw [List.mem_reverse, List.mem_map] at hc
    obtain ⟨d, hd, rfl⟩ := hc
    have := digitsLE_lt_ten n n d hd
    omega

theorem parseNatOpt_natDec (n : Nat) : parseNatOpt (natDec n) = some n := by
  have h1 := natDec_ne_nil n
  have h2 := natDec_all_digits n
  simp only [parseNatOpt, parseNat_natDec, List.all_eq_true]
  rw [if_pos]
  refine ⟨h1, ?_⟩
  intro c hc
  have := h2 c hc
  simp [isDigitByte]
  omega

theorem parseIntOpt_intDec (v : Int) : parseIntOpt (intDec v) = some v := by
  by_cases hv : v < 0
  · rw [intDec, if_pos hv, parseIntOpt]
    simp [parseNatOpt_natDec]
    omega
  · rw [intDec, if_neg hv]
    have hd := natDec_all_digits v.toNat
    have hne : (natDec v.toNat).head? ≠ some 45 := by
      intro h
      cases hm : natDec v.toNat with
      | nil => rw [hm] at h; simp at h
      | cons c rest =>
        rw [hm] at h
        simp only [List.head?_cons, Option.some.injEq] at h
        have hmem : (45 : Nat) ∈ natDec v.toNat := by
          rw [hm, ← h]; exact List.mem_cons_self _ _
        have := hd 45 hmem
        omega
    rw [parseIntOpt, if_neg hne, parseNatOpt_natDec]
    simp
    omega

theorem intDec_chars (v : Int) : ∀ c ∈ intDec v, c = 45 ∨ (48 ≤ c ∧ c < 58) := by
  intro c hc
  by_cases hv : v < 0
  · simp only [intDec, if_pos hv, List.mem_cons] at hc
    rcases hc with rfl | hc
    · left; rfl
    · right; exact natDec_all_digits _ c hc
  · simp only [intDec, if_neg hv] at hc
    right; exact natDec_all_digits _ c hc

/-! ## Base64

Go's `encoding/json` marshals a `[]byte` field as standard padded base64
(`base64.StdEncoding`), which is what these functions reproduce. -/

/-- The standard base64 alphabet, indexed `0..63`. -/
def encChar (k : Nat) : Nat :=
  if k < 26 then 65 + k
  else if k < 52 then 97 + (k - 26)
  else if k < 62 then 48 + (k - 52)
  else if k = 62 then 43
  else 47

/-- Inverse of the base64 alphabet; `none` off the alphabet (in particular
for the padding byte 61, `=`). -/
def decChar (c : Nat) : Option Nat :=
  if 65 ≤ c ∧ c < 91 then some (c - 65)
  else if 97 ≤ c ∧ c < 123 then some (26 + (c - 97))
  else if 48 ≤ c ∧ c < 58 then some (52 + (c - 48))
  else if c = 43 then some 62
  else if c = 47 then some 63
  else none

theorem decChar_encChar : ∀ k, k < 64 → decChar (encChar k) = some k := by decide

theorem encChar_ne_quote (k : Nat) : encChar k ≠ 34 := by
  unfold encChar; split_ifs <;> omega

theorem encChar_ne_pad (k : Nat) : encChar k ≠ 61 := by
  unfold encChar; split_ifs <;> omega

/-- Standard padded base64 encoding of a byte string. -/
def b64encode : List Nat → List Nat
  | a :: b :: c :: rest =>
    encChar (a / 4) :: encChar (a % 4 * 16 + b / 16) ::
      encChar (b % 16 * 4 + c / 64) :: encChar (c % 64) :: b64encode rest
  | [a, b] => [encChar (a / 4), encChar (a % 4 * 16 + b / 16), encChar (b % 16 * 4), 61]
  | [a] => [encChar (a / 4), encChar (a % 4 * 16), 61, 61]
  | [] => []

/-- Standard padded base64 decoding; `none` on malformed input.  Matches
`base64.StdEncoding.Decode` on padded input (Go's default decoder does not
check the unused trailing bits of the final group). -/
def b64decode : List Nat → Option (List Nat)
  | w :: x :: y :: z :: rest =>
    if y = 61 ∧ z = 61 ∧ rest = [] then
      (decChar w).bind fun dw => (decChar x).map fun dx => [dw * 4 + dx / 16]
    else if z = 61 ∧ rest = [] then
      (decChar w).bind fun dw => (decChar x).bind fun dx => (decChar y).map fun dy =>
        [dw * 4 + dx / 16, dx % 16 * 16 + dy / 4]
    else
      (decChar w).bind fun dw => (decChar x).bind fun dx => (decChar y).bind fun dy =>
        (decChar z).bind fun dz => (b64decode rest).map fun tail =>
          (dw * 4 + dx / 16) :: (dx % 16 * 16 + dy / 4) :: (dy % 4 * 64 + dz) :: tail
  | [] => some []
  | _ => none

theorem b64encode_length :
    ∀ l : List Nat, (b64encode l).length = 4 * ((l.length + 2) / 3) := by
  intro l
  induction l using b64encode.induct with
  | case1 a b c rest ih =>
    simp only [b64encode, List.length_cons, ih]
    omega
  | case2 a b => simp [b64encode]
  | case3 a => simp [b64encode]
  | case4 => simp [b64encode]

theorem b64encode_ne_quote : ∀ (l : List Nat), ∀ c ∈ b64encode l, c ≠ 34 := by
  intro l
  induction l using b64encode.induct with
  | case1 a b c rest ih =>
    intro ch hch
    simp only [b64encode, List.mem_cons] at hch
    rcases hch with rfl | rfl | rfl | rfl | hch
    · exact encChar_ne_quote _
    · exact encChar_ne_quote _
    · exact encChar_ne_quote _
    · exact encChar_ne_quote _
    · exact ih ch hch
  | case2 a b =>
    intro ch hch
    simp only [b64encode, List.mem_cons] at hch
    rcases hch with rfl | rfl | rfl | rfl | hch
    · exact encChar_ne_quote _
    · exact encChar_ne_quote _
    · exact encChar_ne_quote _
    · omega
    · simp at hch
  | case3 a =>
    intro ch hch
    simp only [b64encode, List.mem_cons] at hch
    rcases hch with rfl | rfl | rfl | rfl | hch
    · exact encChar_ne_quote _
    · exact encChar_ne_quote _
    · omega
    · omega
    · simp at hch
  | case4 =>
    intro ch hch
    simp [b64encode] at hch

theorem b64decode_b64encode :
    ∀ l : List Nat, (∀ b ∈ l, b < 256) → b64decode (b64encode l) = some l := by
  intro l
  induction l using b64encode.induct with
  | case1 a b c rest ih =>
    intro hb
    have ha : a < 256 := hb a (by simp)
    have hbb : b < 256 := hb b (by simp)
    have hc : c < 256 := hb c (by simp)
    have hrest : ∀ x ∈ rest, x < 256 := fun x hx => hb x (by simp [hx])
    have e1 := decChar_encChar (a / 4) (by omega)
    have e2 := decChar_encChar (a % 4 * 16 + b / 16) (by omega)
    have e3 := decChar_encChar (b % 16 * 4 + c / 64) (by omega)
    have e4 := decChar_encChar (c % 64) (by omega)
    have p3 := encChar_ne_pad (b % 16 * 4 + c / 64)
    have htail := ih hrest
    rw [b64encode]
    rw [show ∀ w x y z t, b64decode (w :: x :: y :: z :: t) =
      (if y = 61 ∧ z = 61 ∧ t = [] then
        (decChar w).bind fun dw => (decChar x).map fun dx => [dw * 4 + dx / 16]
      else if z = 61 ∧ t = [] then
        (decChar w).bind fun dw => (decChar x).bind fun dx => (decChar y).map fun dy =>
          [dw * 4 + dx / 16, dx % 16 * 16 + dy / 4]
      else
        (decChar w).bind fun dw => (decChar x).bind fun dx => (decChar y).bind fun dy =>
          (decChar z).bind fun dz => (b64decode t).map fun tail =>
            (dw * 4 + dx / 16) :: (dx % 16 * 16 + dy / 4) :: (dy % 4 * 64 + dz) :: tail)
      from fun _ _ _ _ _ => rfl]
    rw [if_neg (by tauto), if_neg (by simp [encChar_ne_pad]), e1, e2, e3, e4, htail]
    simp only [Option.some_bind, Option.map_some', Option.some.injEq, List.cons.injEq]
    refine ⟨by omega, by omega, by omega, trivial⟩
  | case2 a b =>
    intro hb
    have ha : a < 256 := hb a (by simp)
    have hbb : b < 256 := hb b (by simp)
    have e1 := decChar_encChar (a / 4) (by omega)
    have e2 := decChar_encChar (a % 4 * 16 + b / 16) (by omega)
    have e3 := decChar_encChar (b % 16 * 4) (by omega)
    have p3 := encChar_ne_pad (b % 16 * 4)
    rw [show b64encode [a, b] =
      [encChar (a / 4), encChar (a % 4 * 16 + b / 16), encChar (b % 16 * 4), 61] from rfl]
    rw [show ∀ w x y z, b64decode [w, x, y, z] =
      (if y = 61 ∧ z = 61 ∧ ([] : List Nat) = [] then
        (decChar w).bind fun dw => (decChar x).map fun dx => [dw * 4 + dx / 16]
      else if z = 61 ∧ ([] : List Nat) = [] then
        (decChar w).bind fun dw => (decChar x).bind fun dx => (decChar y).map fun dy =>
          [dw * 4 + dx / 16, dx % 16 * 16 + dy / 4]
      else
        (decChar w).bind fun dw => (decChar x).bind fun dx => (decChar y).bind fun dy =>
          (decChar z).bind fun dz => (b64decode []).map fun tail =>
            (dw * 4 + dx / 16) :: (dx % 16 * 16 + dy / 4) :: (dy % 4 * 64 + dz) :: tail)
      from fun _ _ _ _ => rfl]
    rw [if_neg (by tauto), if_pos (by tauto), e1, e2, e3]
    simp only [Option.some_bind, Option.map_some', Option.some.injEq, List.cons.injEq]
    refine ⟨by omega, ⟨by omega, trivial⟩⟩
  | case3 a =>
    intro hb
    have ha : a < 256 := hb a (by simp)
    have e1 := decChar_encChar (a / 4) (by omega)
    have e2 := decChar_encChar (a % 4 * 16) (by omega)
    rw [show b64encode [a] = [encChar (a / 4), encChar (a % 4 * 16), 61, 61] from rfl]
    rw [show ∀ w x, b64decode [w, x, 61, 61] =
      ((decChar w).bind fun dw => (decChar x).map fun dx => [dw * 4 + dx / 16])
      from fun _ _ => rfl]
    rw [e1, e2]
    simp only [Option.some_bind, Option.map_some', Option.some.injEq, List.cons.injEq]
    refine ⟨by omega, trivial⟩
  | case4 => intro _; rfl

/-! ## JSON serialization of `WalData`

`json.Marshal` of the record produces the canonical byte string
`{"seq":<int>,"data":"<base64>","crc":<int>,"check":<bool>}` (fields in
struct order, `[]byte` as standard padded base64, integers in decimal).
`jsonUnmarshal` models `json.Unmarshal` for this struct: it accepts the
canonical marshalled form and rejects everything else (Go's parser is more
lenient about whitespace and field order, which no claim exercises). -/

/-- Drop an expected literal prefix, or fail. -/
def stripPrefixB : List Nat → List Nat → Option (List Nat)
  | [], l => some l
  | _ :: _, [] => none
  | p :: ps, x :: xs => if x = p then stripPrefixB ps xs else none

theorem stripPrefixB_append (p r : List Nat) : stripPrefixB p (p ++ r) = some r := by
  induction p with
  | nil => rfl
  | cons x xs ih => simp [stripPrefixB, ih]

/-- Byte can occur in a decimal integer: minus sign or digit. -/
def isIntByte (c : Nat) : Bool := c == 45 || (48 ≤ c && c < 58)

theorem takeWhile_all_append (p : Nat → Bool) (xs : List Nat) (y : Nat) (ys : List Nat)
    (hxs : ∀ x ∈ xs, p x = true) (hy : p y = false) :
    (xs ++ y :: ys).takeWhile p = xs ∧ (xs ++ y :: ys).dropWhile p = y :: ys := by
  induction xs with
  | nil => simp [List.takeWhile, List.dropWhile, hy]
  | cons x t ih =>
    have hx : p x = true := hxs x (by simp)
    have ht : ∀ a ∈ t, p a = true := fun a ha => hxs a (by simp [ha])
    obtain ⟨ih1, ih2⟩ := ih ht
    constructor
    · simp [List.takeWhile, hx, ih1]
    · simp [List.dropWhile, hx, ih2]

/-- The serialized form of a record, as produced by Go's `json.Marshal`
for the `WalData` struct:
`{"seq":S,"data":"D","crc":C,"check":B}`. -/
def jsonMarshal (r : WalData) : List Nat :=
  [123, 34, 115, 101, 113, 34, 58] ++ intDec r.seq
    ++ [44, 34, 100, 97, 116, 97, 34, 58, 34] ++ b64encode r.data
    ++ [34, 44, 34, 99, 114, 99, 34, 58] ++ intDec r.crc
    ++ [44, 34, 99, 104, 101, 99, 107, 34, 58]
    ++ (if r.checkpoint then [116, 114, 117, 101] else [102, 97, 108, 115, 101])
    ++ [125]

/-- `json.Unmarshal` into a `WalData`, on the canonical form. -/
def jsonUnmarshal (bs : List Nat) : Option WalData :=
  (stripPrefixB [123, 34, 115, 101, 113, 34, 58] bs).bind fun s1 =>
  (parseIntOpt (s1.takeWhile isIntByte)).bind fun seqv =>
  (stripPrefixB [44, 34, 100, 97, 116, 97, 34, 58, 34] (s1.dropWhile isIntByte)).bind fun s3 =>
  (b64decode (s3.takeWhile (fun c => c != 34))).bind fun dat =>
  (stripPrefixB [34, 44, 34, 99, 114, 99, 34, 58] (s3.dropWhile (fun c => c != 34))).bind fun s5 =>
  (parseIntOpt (s5.takeWhile isIntByte)).bind fun crcv =>
  (stripPrefixB [44, 34, 99, 104, 101, 99, 107, 34, 58] (s5.dropWhile isIntByte)).bind fun s7 =>
  if s7 = [116, 114, 117, 101, 125] then some ⟨seqv, dat, crcv, true⟩
  else if s7 = [102, 97, 108, 115, 101, 125] then some ⟨seqv, dat, crcv, false⟩
  else none

theorem intDec_isIntByte (v : Int) : ∀ c ∈ intDec v, isIntByte c = true := by
  intro c hc
  rcases intDec_chars v c hc with rfl | h
  · rfl
  · simp [isIntByte]; omega

theorem jsonUnmarshal_jsonMarshal (r : WalData) (h : ∀ b ∈ r.data, b < 256) :
    jsonUnmarshal (jsonMarshal r) = some r := by
  unfold jsonMarshal
  unfold jsonUnmarshal
  rw [List.append_assoc, List.append_assoc, List.append_assoc, List.append_assoc,
    List.append_assoc, List.append_assoc, List.append_assoc]
  rw [stripPrefixB_append]
  rw [Option.some_bind]
  have hseq := takeWhile_all_append isIntByte (intDec r.seq) 44
    ([34, 100, 97, 116, 97, 34, 58, 34] ++ (b64encode r.data
      ++ ([34, 44, 34, 99, 114, 99, 34, 58] ++ (intDec r.crc
      ++ ([44, 34, 99, 104, 101, 99, 107, 34, 58]
      ++ ((if r.checkpoint then [116, 114, 117, 101] else [102, 97, 108, 115, 101])
      ++ [125]))))))
    (intDec_isIntByte r.seq) rfl
  rw [show intDec r.seq ++ ([44, 34, 100, 97, 116, 97, 34, 58, 34] ++ (b64encode r.data
      ++ ([34, 44, 34, 99, 114, 99, 34, 58] ++ (intDec r.crc
      ++ ([44, 34, 99, 104, 101, 99, 107, 34, 58]
      ++ ((if r.checkpoint then [116, 114, 117, 101] else [102, 97, 108, 115, 101])
      ++ [125])))))) =
    intDec r.seq ++ 44 :: ([34, 100, 97, 116, 97, 34, 58, 34] ++ (b64encode r.data
      ++ ([34, 44, 34, 99, 114, 99, 34, 58] ++ (intDec r.crc
      ++ ([44, 34, 99, 104, 101, 99, 107, 34, 58]
      ++ ((if r.checkpoint then [116, 114, 117, 101] else [102, 97, 108, 115, 101])
      ++ [125])))))) from rfl] at *
  rw [hseq.1, hseq.2, parseIntOpt_intDec, Option.some_bind]
  rw [show (44 : Nat) :: ([34, 100, 97, 116, 97, 34, 58, 34] ++ (b64encode r.data
      ++ ([34, 44, 34, 99, 114, 99, 34, 58] ++ (intDec r.crc
      ++ ([44, 34, 99, 104, 101, 99, 107, 34, 58]
      ++ ((if r.checkpoint then [116, 114, 117, 101] else [102, 97, 108, 115, 101])
      ++ [125])))))) =
    [44, 34, 100, 97, 116, 97, 34, 58, 34] ++ (b64encode r.data
      ++ ([34, 44, 34, 99, 114, 99, 34, 58] ++ (intDec r.crc
      ++ ([44, 34, 99, 104, 101, 99, 107, 34, 58]
      ++ ((if r.checkpoint then [116, 114, 117, 101] else [102, 97, 108, 115, 101])
      ++ [125]))))) from rfl]
  rw [stripPrefixB_append, Option.some_bind]
  have hdat := takeWhile_all_append (fun c => c != 34) (b64encode r.data) 34
    (44 :: 34 :: 99 :: 114 :: 99 :: 34 :: 58 :: (intDec r.crc
      ++ ([44, 34, 99, 104, 101, 99, 107, 34, 58]
      ++ ((if r.checkpoint then [116, 114, 117, 101] else [102, 97, 108, 115, 101])
      ++ [125]))))
    (by
      intro x hx
      have := b64encode_ne_quote r.data x hx
      simp [this])
    (by simp)
  rw [show b64encode r.data ++ ([34, 44, 34, 99, 114, 99, 34, 58] ++ (intDec r.crc
      ++ ([44, 34, 99, 104, 101, 99, 107, 34, 58]
      ++ ((if r.checkpoint then [116, 114, 117, 101] else [102, 97, 108, 115, 101])
      ++ [125])))) =
    b64encode r.data ++ 34 :: (44 :: 34 :: 99 :: 114 :: 99 :: 34 :: 58 :: (intDec r.crc
      ++ ([44, 34, 99, 104, 101, 99, 107, 34, 58]
      ++ ((if r.checkpoint then [116, 114, 117, 101] else [102, 97, 108, 115, 101])
      ++ [125])))) from rfl]
  rw [hdat.1, hdat.2, b64decode_b64encode r.data h, Option.some_bind]
  rw [show (34 : Nat) :: (44 :: 34 :: 99 :: 114 :: 99 :: 34 :: 58 :: (intDec r.crc
      ++ ([44, 34, 99, 104, 101, 99, 107, 34, 58]
      ++ ((if r.checkpoint then [116, 114, 117, 101] else [102, 97, 108, 115, 101])
      ++ [125])))) =
    [34, 44, 34, 99, 114, 99, 34, 58] ++ (intDec r.crc
      ++ ([44, 34, 99, 104, 101, 99, 107, 34, 58]
      ++ ((if r.checkpoint then [116, 114, 117, 101] else [102, 97, 108, 115, 101])
      ++ [125]))) from rfl]
  rw [stripPrefixB_append, Option.some_bind]
  have hcrc := takeWhile_all_append isIntByte (intDec r.crc) 44
    (34 :: 99 :: 104 :: 101 :: 99 :: 107 :: 34 :: 58 ::
      ((if r.checkpoint then [116, 114, 117, 101] else [102, 97, 108, 115, 101]) ++ [125]))
    (intDec_isIntByte r.crc) rfl
  rw [show intDec r.crc ++ ([44, 34, 99, 104, 101, 99, 107, 34, 58]
      ++ ((if r.checkpoint then [116, 114, 117, 101] else [102, 97, 108, 115, 101])
      ++ [125])) =
    intDec r.crc ++ 44 :: (34 :: 99 :: 104 :: 101 :: 99 :: 107 :: 34 :: 58 ::
      ((if r.checkpoint then [116, 114, 117, 101] else [102, 97, 108, 115, 101]) ++ [125]))
    from rfl]
  rw [hcrc.1, hcrc.2, parseIntOpt_intDec, Option.some_bind]
  rw [show (44 : Nat) :: (34 :: 99 :: 104 :: 101 :: 99 :: 107 :: 34 :: 58 ::
      ((if r.checkpoint then [116, 114, 117, 101] else [102, 97, 108, 115, 101]) ++ [125])) =
    [44, 34, 99, 104, 101, 99, 107, 34, 58]
      ++ ((if r.checkpoint then [116, 114, 117, 101] else [102, 97, 108, 115, 101]) ++ [125])
    from rfl]
  rw [stripPrefixB_append, Option.some_bind]
  obtain ⟨s, d, c, ck⟩ := r
  cases ck <;> simp

/-! ## Frames and the segment walk

A frame is `<u32 little-endian length><serialized record>`.  `readSegment`
(`wal.go:191`) walks a segment's bytes decoding frame after frame;
`repairSegment` (`wal.go:242`) walks the same way but stops at the first
failure, accumulating the byte image of the frames that passed.

Both loops are written with an explicit fuel argument (one unit per
iteration; each iteration consumes at least four bytes, so `length + 1`
fuel is always enough) to keep them kernel-reducible.  Go runtime panics
(`make([]byte, size)` with a negative `int32` size) are modelled by the
dedicated result `panicked`. -/

/-- Little-endian 4-byte encoding of the low 32 bits of `n`
(`intToBytes(int32(n), binary.LittleEndian)`). -/
def le4enc (n : Nat) : List Nat :=
  [n % 256, n / 256 % 256, n / 65536 % 256, n / 16777216 % 256]

/-- Little-endian 32-bit read of four bytes (`binary.Read` into an `int32`,
before the sign reinterpretation). -/
def le4dec (a b c d : Nat) : Nat := a + 256 * b + 65536 * c + 16777216 * d

theorem le4dec_le4enc (n : Nat) (h : n < 2 ^ 32) :
    le4dec (n % 256) (n / 256 % 256) (n / 65536 % 256) (n / 16777216 % 256) = n := by
  unfold le4dec
  omega

/-- Outcomes of the byte-level loops.  `brokenData` is `ErrBrokenData`,
`readFailed` is `ErrRead`, `loadFailed` is the ad-hoc
`errors.New("failed to load data from log")`, `panicked` models a Go
runtime panic (negative `make` length), and `outOfFuel` is the
(unreachable) fuel-exhaustion sentinel of the embedding. -/
inductive WalErr where
  | brokenData
  | readFailed
  | loadFailed
  | badSegmentNo
  | panicked
  | outOfFuel
deriving DecidableEq, Repr

/-- The `readSegment` loop (`wal.go:208-237`): read a 4-byte length
(clean EOF ends the walk; a short read is `ErrRead`; a negative `int32`
length panics in `make`), read the payload (`ErrRead` when short),
`json.Unmarshal` it (ad-hoc load error on failure), check the CRC
(`ErrBrokenData` on mismatch), and accumulate the record. -/
def readFramesAux : Nat → List Nat → List WalData → Except WalErr (List WalData)
  | 0, _, _ => .error .outOfFuel
  | _ + 1, [], acc => .ok acc.reverse
  | f + 1, a :: bs, acc =>
    match bs with
    | b :: c :: d :: rest =>
      if 2 ^ 31 ≤ le4dec a b c d then .error .panicked
      else if rest.length < le4dec a b c d then .error .readFailed
      else
        match jsonUnmarshal (rest.take (le4dec a b c d)) with
        | none => .error .loadFailed
        | some r =>
          if r.IsValid then readFramesAux f (rest.drop (le4dec a b c d)) (r :: acc)
          else .error .brokenData
    | _ => .error .readFailed

/-- `readSegment` on a byte image: the frame walk with adequate fuel. -/
def readSegmentBytes (bs : List Nat) : Except WalErr (List WalData) :=
  readFramesAux (bs.length + 1) bs []

/-- The `repairSegment` loop (`wal.go:256-288`): walk frames as in
`readSegment`, but stop (keeping what was accumulated) at the first
failure: clean EOF, a short length read (`binary.Read` returns a non-EOF
error, the zero-valued size then yields an empty body that fails to
unmarshal), a short payload read, an unmarshal failure, or a CRC
mismatch.  A negative `int32` length still panics.  Kept frames are
re-emitted as `intToBytes(len(body)) ++ body`, and `lastData` tracks the
last record kept. -/
def repairFramesAux : Nat → List Nat → List Nat → WalData → Except WalErr (List Nat × WalData)
  | 0, _, _, _ => .error .outOfFuel
  | _ + 1, [], out, lastD => .ok (out, lastD)
  | f + 1, a :: bs, out, lastD =>
    match bs with
    | b :: c :: d :: rest =>
      if 2 ^ 31 ≤ le4dec a b c d then .error .panicked
      else if rest.length < le4dec a b c d then .ok (out, lastD)
      else
        match jsonUnmarshal (rest.take (le4dec a b c d)) with
        | none => .ok (out, lastD)
        | some r =>
          if r.IsValid then
            repairFramesAux f (rest.drop (le4dec a b c d))
              (out ++ le4enc (rest.take (le4dec a b c d)).length ++ rest.take (le4dec a b c d)) r
          else .ok (out, lastD)
    | _ => .ok (out, lastD)

/-- `repairSegment`'s rebuilt byte image and final `lastData` for one
segment's bytes. -/
def repairSegmentBytes (bs : List Nat) : Except WalErr (List Nat × WalData) :=
  repairFramesAux (bs.length + 1) bs [] zeroWalData

/-- A frame around a given serialized body. -/
def chunkBytes (b : List Nat) : List Nat := le4enc b.length ++ b

/-- Concatenation of frames around the given bodies. -/
def chunksBytes (bodies : List (List Nat)) : List Nat := (bodies.map chunkBytes).flatten

/-- A body the walk accepts: in-range length, unmarshals, CRC-valid. -/
def goodBody (b : List Nat) : Prop :=
  b.length < 2 ^ 31 ∧ ∃ r, jsonUnmarshal b = some r ∧ r.IsValid = true

/-- The record a body deserializes to. -/
def bodyRec (b : List Nat) : WalData := (jsonUnmarshal b).getD zeroWalData

/-- The records of a list of bodies. -/
def recsOf (bodies : List (List Nat)) : List WalData := bodies.map bodyRec

theorem chunkBytes_length (b : List Nat) : (chunkBytes b).length = 4 + b.length := by
  simp only [chunkBytes, le4enc, List.length_append, List.length_cons, List.length_nil]

theorem chunksBytes_cons (b : List Nat) (bodies : List (List Nat)) :
    chunksBytes (b :: bodies) = chunkBytes b ++ chunksBytes bodies := by
  simp [chunksBytes]

theorem chunksBytes_nil : chunksBytes [] = [] := rfl

theorem chunksBytes_append (l₁ l₂ : List (List Nat)) :
    chunksBytes (l₁ ++ l₂) = chunksBytes l₁ ++ chunksBytes l₂ := by
  simp [chunksBytes]

/-- One step of the read walk over a well-formed frame. -/
theorem readFramesAux_chunk (f : Nat) (b t : List Nat) (acc : List WalData) (r : WalData)
    (hlen : b.length < 2 ^ 31) (hu : jsonUnmarshal b = some r) (hv : r.IsValid = true) :
    readFramesAux (f + 1) (chunkBytes b ++ t) acc = readFramesAux f t (r :: acc) := by
  have hdec : le4dec (b.length % 256) (b.length / 256 % 256) (b.length / 65536 % 256)
      (b.length / 16777216 % 256) = b.length := le4dec_le4enc _ (by omega)
  have hshape : chunkBytes b ++ t =
      b.length % 256 :: b.length / 256 % 256 :: b.length / 65536 % 256 ::
        b.length / 16777216 % 256 :: (b ++ t) := by
    simp [chunkBytes, le4enc]
  rw [hshape]
  simp only [readFramesAux, hdec]
  rw [if_neg (by omega)]
  rw [if_neg (by simp only [List.length_append]; omega)]
  rw [List.take_left, hu]
  simp [hv]

/-- Fuel does not matter as long as it exceeds the byte count. -/
theorem readFramesAux_fuel :
    ∀ (f g : Nat) (bs : List Nat) (acc : List WalData), bs.length < f → bs.length < g →
      readFramesAux f bs acc = readFramesAux g bs acc := by
  intro f
  induction f with
  | zero => intro g bs acc hf; omega
  | succ f ih =>
    intro g bs acc hf hg
    obtain ⟨g', rfl⟩ : ∃ g', g = g' + 1 := ⟨g - 1, by omega⟩
    match bs with
    | [] => rfl
    | [a] => rfl
    | [a, b] => rfl
    | [a, b, c] => rfl
    | a :: b :: c :: d :: rest =>
      simp only [readFramesAux]
      by_cases h1 : 2 ^ 31 ≤ le4dec a b c d
      · rw [if_pos h1, if_pos h1]
      · rw [if_neg h1, if_neg h1]
        by_cases h2 : rest.length < le4dec a b c d
        · rw [if_pos h2, if_pos h2]
        · rw [if_neg h2, if_neg h2]
          cases hu : jsonUnmarshal (rest.take (le4dec a b c d)) with
          | none => rfl
          | some r =>
            by_cases hv : r.IsValid = true
            · simp only [hv, if_pos rfl]
              apply ih
              · have := List.length_drop (le4dec a b c d) rest
                simp only [List.length_cons] at hf
                omega
              · have := List.length_drop (le4dec a b c d) rest
                simp only [List.length_cons] at hg
                omega
            · simp only [Bool.not_eq_true] at hv
              simp only [hv, Bool.false_eq_true, if_neg, ite_false]

/-- Walking a run of well-formed frames accumulates their records and
continues on the remainder. -/
theorem readFramesAux_chunks :
    ∀ (bodies : List (List Nat)) (t : List Nat) (acc : List WalData) (f : Nat),
      (∀ b ∈ bodies, goodBody b) → (chunksBytes bodies ++ t).length < f →
      readFramesAux f (chunksBytes bodies ++ t) acc =
        readFramesAux (t.length + 1) t ((recsOf bodies).reverse ++ acc) := by
  intro bodies
  induction bodies with
  | nil =>
    intro t acc f _ hf
    simp only [chunksBytes_nil, List.nil_append] at hf ⊢
    simp only [recsOf, List.map_nil, List.reverse_nil, List.nil_append]
    exact readFramesAux_fuel _ _ _ _ hf (by omega)
  | cons b bodies ih =>
    intro t acc f hg hf
    obtain ⟨f', rfl⟩ : ∃ f', f = f' + 1 := ⟨f - 1, by omega⟩
    obtain ⟨hlen, r, hu, hv⟩ := hg b (by simp)
    rw [chunksBytes_cons, List.append_assoc]
    rw [readFramesAux_chunk f' b (chunksBytes bodies ++ t) acc r hlen hu hv]
    have hr : bodyRec b = r := by simp [bodyRec, hu]
    have : (chunksBytes bodies ++ t).length < f' := by
      have h1 : (chunksBytes (b :: bodies) ++ t).length =
          4 + b.length + (chunksBytes bodies ++ t).length := by
        rw [chunksBytes_cons]
        simp [chunkBytes_length]
      omega
    rw [ih t (r :: acc) f' (fun x hx => hg x (by simp [hx])) this]
    congr 1
    simp [recsOf, hr]

/-- Reading a segment image consisting of well-formed frames returns
exactly their records. -/
theorem readSegmentBytes_chunks (bodies : List (List Nat))
    (hg : ∀ b ∈ bodies, goodBody b) :
    readSegmentBytes (chunksBytes bodies) = .ok (recsOf bodies) := by
  unfold readSegmentBytes
  have := readFramesAux_chunks bodies [] [] ((chunksBytes bodies).length + 1) hg (by simp)
  simp only [List.append_nil] at this
  rw [this]
  simp [readFramesAux]

/-- The read walk over well-formed frames followed by a tail, with no
accumulator. -/
theorem readSegmentBytes_append_tail (bodies : List (List Nat)) (t : List Nat)
    (hg : ∀ b ∈ bodies, goodBody b) :
    readSegmentBytes (chunksBytes bodies ++ t) =
      readFramesAux (t.length + 1) t (recsOf bodies).reverse := by
  unfold readSegmentBytes
  have := readFramesAux_chunks bodies t [] ((chunksBytes bodies ++ t).length + 1) hg (by omega)
  rw [this, List.append_nil]

/-- One step of the repair walk over a well-formed frame. -/
theorem repairFramesAux_chunk (f : Nat) (b t out : List Nat) (ld r : WalData)
    (hlen : b.length < 2 ^ 31) (hu : jsonUnmarshal b = some r) (hv : r.IsValid = true) :
    repairFramesAux (f + 1) (chunkBytes b ++ t) out ld =
      repairFramesAux f t (out ++ chunkBytes b) r := by
  have hdec : le4dec (b.length % 256) (b.length / 256 % 256) (b.length / 65536 % 256)
      (b.length / 16777216 % 256) = b.length := le4dec_le4enc _ (by omega)
  have hshape : chunkBytes b ++ t =
      b.length % 256 :: b.length / 256 % 256 :: b.length / 65536 % 256 ::
        b.length / 16777216 % 256 :: (b ++ t) := by
    simp [chunkBytes, le4enc]
  rw [hshape]
  simp only [repairFramesAux, hdec]
  rw [if_neg (by omega)]
  rw [if_neg (by simp only [List.length_append]; omega)]
  rw [List.take_left, hu]
  simp [hv, chunkBytes, List.append_assoc]

/-- Fuel does not matter for the repair walk either. -/
theorem repairFramesAux_fuel :
    ∀ (f g : Nat) (bs out : List Nat) (ld : WalData), bs.length < f → bs.length < g →
      repairFramesAux f bs out ld = repairFramesAux g bs out ld := by
  intro f
  induction f with
  | zero => intro g bs out ld hf; omega
  | succ f ih =>
    intro g bs out ld hf hg
    obtain ⟨g', rfl⟩ : ∃ g', g = g' + 1 := ⟨g - 1, by omega⟩
    match bs with
    | [] => rfl
    | [a] => rfl
    | [a, b] => rfl
    | [a, b, c] => rfl
    | a :: b :: c :: d :: rest =>
      simp only [repairFramesAux]
      by_cases h1 : 2 ^ 31 ≤ le4dec a b c d
      · rw [if_pos h1, if_pos h1]
      · rw [if_neg h1, if_neg h1]
        by_cases h2 : rest.length < le4dec a b c d
        · rw [if_pos h2, if_pos h2]
        · rw [if_neg h2, if_neg h2]
          cases hu : jsonUnmarshal (rest.take (le4dec a b c d)) with
          | none => rfl
          | some r =>
            by_cases hv : r.IsValid = true
            · simp only [hv, if_pos rfl]
              apply ih
              · have := List.length_drop (le4dec a b c d) rest
                simp only [List.length_cons] at hf
                omega
              · have := List.length_drop (le4dec a b c d) rest
                simp only [List.length_cons] at hg
                omega
            · simp only [Bool.not_eq_true] at hv
              simp only [hv, Bool.false_eq_true, if_neg, ite_false]

/-- The repair walk consumes a run of well-formed frames, re-emitting their
bytes and tracking the last record. -/
theorem repairFramesAux_chunks :
    ∀ (bodies : List (List Nat)) (t out : List Nat) (ld : WalData) (f : Nat),
      (∀ b ∈ bodies, goodBody b) → (chunksBytes bodies ++ t).length < f →
      repairFramesAux f (chunksBytes bodies ++ t) out ld =
        repairFramesAux (t.length + 1) t (out ++ chunksBytes bodies)
          (((recsOf bodies).getLast?).getD ld) := by
  intro bodies
  induction bodies with
  | nil =>
    intro t out ld f _ hf
    simp only [chunksBytes_nil, List.nil_append, List.append_nil] at hf ⊢
    simp only [recsOf, List.map_nil, List.getLast?_nil, Option.getD_none]
    exact repairFramesAux_fuel _ _ _ _ _ hf (by omega)
  | cons b bodies ih =>
    intro t out ld f hg hf
    obtain ⟨f', rfl⟩ : ∃ f', f = f' + 1 := ⟨f - 1, by omega⟩
    obtain ⟨hlen, r, hu, hv⟩ := hg b (by simp)
    rw [chunksBytes_cons, List.append_assoc]
    rw [repairFramesAux_chunk f' b (chunksBytes bodies ++ t) out ld r hlen hu hv]
    have hr : bodyRec b = r := by simp [bodyRec, hu]
    have hlt : (chunksBytes bodies ++ t).length < f' := by
      have h1 : (chunksBytes (b :: bodies) ++ t).length =
          4 + b.length + (chunksBytes bodies ++ t).length := by
        rw [chunksBytes_cons]
        simp [chunkBytes_length]
      omega
    rw [ih t (out ++ chunkBytes b) r f' (fun x hx => hg x (by simp [hx])) hlt]
    rw [List.append_assoc, ← chunksBytes_cons]
    congr 1
    simp only [recsOf, List.map_cons, hr]
    cases hbo : bodies.map bodyRec with
    | nil => simp
    | cons x xs =>
      have hsome : (x :: xs).getLast?.isSome := by simp
      obtain ⟨y, hy⟩ := Option.isSome_iff_exists.mp hsome
      simp [hy]

/-- The repair walk over well-formed frames followed by a tail, with empty
initial accumulator. -/
theorem repairSegmentBytes_append_tail (bodies : List (List Nat)) (t : List Nat)
    (hg : ∀ b ∈ bodies, goodBody b) :
    repairSegmentBytes (chunksBytes bodies ++ t) =
      repairFramesAux (t.length + 1) t (chunksBytes bodies)
        (((recsOf bodies).getLast?).getD zeroWalData) := by
  unfold repairSegmentBytes
  have := repairFramesAux_chunks bodies t [] zeroWalData
    ((chunksBytes bodies ++ t).length + 1) hg (by omega)
  rw [this, List.nil_append]

/-- Central decomposition: whenever the repair walk returns cleanly, the
rebuilt image appends a run of well-formed frames to the accumulator, that
run is a byte prefix of the input, and `lastData` is the last record kept
(or the initial one when nothing was kept). -/
theorem repairFramesAux_ok :
    ∀ (f : Nat) (bs out : List Nat) (ld : WalData) (res : List Nat × WalData),
      (∀ x ∈ bs, x < 256) → bs.length < f →
      repairFramesAux f bs out ld = .ok res →
      ∃ bodies rest, (∀ b ∈ bodies, goodBody b) ∧ bs = chunksBytes bodies ++ rest ∧
        res.1 = out ++ chunksBytes bodies ∧
        res.2 = ((recsOf bodies).getLast?).getD ld := by
  intro f
  induction f with
  | zero => intro bs out ld res _ hf; omega
  | succ f ih =>
    intro bs out ld res hbytes hf hok
    match bs, hok with
    | [], hok =>
      refine ⟨[], [], by simp, by simp [chunksBytes_nil], ?_, ?_⟩
      · have : res = (out, ld) := by
          simpa [repairFramesAux] using hok.symm
        simp [this, chunksBytes_nil]
      · have : res = (out, ld) := by
          simpa [repairFramesAux] using hok.symm
        simp [this, recsOf]
    | [a], hok =>
      have : res = (out, ld) := by simpa [repairFramesAux] using hok.symm
      exact ⟨[], [a], by simp, by simp [chunksBytes_nil], by simp [this, chunksBytes_nil],
        by simp [this, recsOf]⟩
    | [a, b], hok =>
      have : res = (out, ld) := by simpa [repairFramesAux] using hok.symm
      exact ⟨[], [a, b], by simp, by simp [chunksBytes_nil], by simp [this, chunksBytes_nil],
        by simp [this, recsOf]⟩
    | [a, b, c], hok =>
      have : res = (out, ld) := by simpa [repairFramesAux] using hok.symm
      exact ⟨[], [a, b, c], by simp, by simp [chunksBytes_nil], by simp [this, chunksBytes_nil],
        by simp [this, recsOf]⟩
    | a :: b :: c :: d :: rest, hok =>
      rw [repairFramesAux] at hok
      by_cases h1 : 2 ^ 31 ≤ le4dec a b c d
      · rw [if_pos h1] at hok
        exact absurd hok (by simp)
      · rw [if_neg h1] at hok
        by_cases h2 : rest.length < le4dec a b c d
        · rw [if_pos h2] at hok
          have : res = (out, ld) := by simpa using hok.symm
          exact ⟨[], a :: b :: c :: d :: rest, by simp, by simp [chunksBytes_nil],
            by simp [this, chunksBytes_nil], by simp [this, recsOf]⟩
        · rw [if_neg h2] at hok
          cases hu : jsonUnmarshal (rest.take (le4dec a b c d)) with
          | none =>
            simp only [hu] at hok
            have : res = (out, ld) := by simpa using hok.symm
            exact ⟨[], a :: b :: c :: d :: rest, by simp, by simp [chunksBytes_nil],
              by simp [this, chunksBytes_nil], by simp [this, recsOf]⟩
          | some r =>
            simp only [hu] at hok
            by_cases hv : r.IsValid = true
            · rw [if_pos hv] at hok
              have hrest : ∀ x ∈ rest.drop (le4dec a b c d), x < 256 := by
                intro x hx
                exact hbytes x (by simp [List.mem_of_mem_drop hx])
              have hlf : (rest.drop (le4dec a b c d)).length < f := by
                have := List.length_drop (le4dec a b c d) rest
                simp only [List.length_cons] at hf
                omega
              obtain ⟨bodies, rest2, hgood, hdecomp, hres1, hres2⟩ :=
                ih (rest.drop (le4dec a b c d))
                  (out ++ le4enc (rest.take (le4dec a b c d)).length ++ rest.take (le4dec a b c d))
                  r res hrest hlf hok
              have htakelen : (rest.take (le4dec a b c d)).length = le4dec a b c d :=
                List.length_take_of_le (by omega)
              have habcd : a = le4dec a b c d % 256 ∧ b = le4dec a b c d / 256 % 256 ∧
                  c = le4dec a b c d / 65536 % 256 ∧ d = le4dec a b c d / 16777216 % 256 := by
                have ha : a < 256 := hbytes a (by simp)
                have hb : b < 256 := hbytes b (by simp)
                have hc : c < 256 := hbytes c (by simp)
                have hd : d < 256 := hbytes d (by simp)
                unfold le4dec
                refine ⟨by omega, by omega, by omega, by omega⟩
              have hchunk : chunkBytes (rest.take (le4dec a b c d)) =
                  a :: b :: c :: d :: rest.take (le4dec a b c d) := by
                simp only [chunkBytes, le4enc, htakelen]
                rw [← habcd.1, ← habcd.2.1, ← habcd.2.2.1, ← habcd.2.2.2]
                rfl
              refine ⟨rest.take (le4dec a b c d) :: bodies, rest2,
                ?_, ?_, ?_, ?_⟩
              · intro x hx
                rcases List.mem_cons.mp hx with rfl | hx
                · exact ⟨by omega, r, hu, hv⟩
                · exact hgood x hx
              · rw [chunksBytes_cons, hchunk]
                simp only [List.cons_append, List.append_assoc]
                rw [← hdecomp]
                simp [List.take_append_drop]
              · rw [hres1, chunksBytes_cons]
                simp [chunkBytes, htakelen, List.append_assoc]
              · rw [hres2]
                simp only [recsOf, List.map_cons]
                have hr : bodyRec (rest.take (le4dec a b c d)) = r := by simp [bodyRec, hu]
                rw [hr]
                cases hbo : bodies.map bodyRec with
                | nil => simp
                | cons x xs =>
                  have hsome : (x :: xs).getLast?.isSome := by simp
                  obtain ⟨y, hy⟩ := Option.isSome_iff_exists.mp hsome
                  simp [hy]
            · rw [if_neg hv] at hok
              have : res = (out, ld) := by simpa using hok.symm
              exact ⟨[], a :: b :: c :: d :: rest, by simp, by simp [chunksBytes_nil],
                by simp [this, chunksBytes_nil], by simp [this, recsOf]⟩

/-! ## The WAL state machine

`Wal` models the mutable state of a `Wal` value from `wal.go` together
with the on-disk bytes of its segment files.  Segment `i` (1-based) for
`i < lastSegmentNo` is `prevSegments[i-1]`; the current segment's file
holds `curFlushed` and the `bufio.Writer` holds `buffer` (capacity 4096).
`lastSegmentNo = prevSegments.length + 1`. -/

structure Wal where
  prevSegments : List (List Nat)
  curFlushed : List Nat
  buffer : List Nat
  maxLogSize : Int
  lastSequenceNo : Int
deriving DecidableEq, Repr

/-- The current (highest) segment number. -/
def Wal.lastSegmentNo (w : Wal) : Nat := w.prevSegments.length + 1

/-- `bufio.Writer.Write` with the default 4096-byte buffer: fill the
buffer if everything fits; otherwise flush (writing a full buffer, or the
whole payload directly when the buffer is empty) and keep any small
remainder buffered.  Returns the new file contents and buffer. -/
def bufWrite (flushed buf p : List Nat) : List Nat × List Nat :=
  if buf.length + p.length ≤ 4096 then (flushed, buf ++ p)
  else if buf.length = 0 then (flushed ++ p, [])
  else
    let k := 4096 - buf.length
    if (p.drop k).length ≤ 4096 then (flushed ++ buf ++ p.take k, p.drop k)
    else (flushed ++ buf ++ p.take k ++ p.drop k, [])

theorem bufWrite_concat (flushed buf p : List Nat) :
    (bufWrite flushed buf p).1 ++ (bufWrite flushed buf p).2 = flushed ++ buf ++ p := by
  unfold bufWrite
  by_cases h1 : buf.length + p.length ≤ 4096
  · rw [if_pos h1]
    simp [List.append_assoc]
  · rw [if_neg h1]
    by_cases h2 : buf.length = 0
    · rw [if_pos h2]
      have hb : buf = [] := List.length_eq_zero.mp h2
      simp [hb]
    · rw [if_neg h2]
      by_cases h3 : (p.drop (4096 - buf.length)).length ≤ 4096
      · rw [if_pos h3]
        simp [List.append_assoc, List.take_append_drop]
      · rw [if_neg h3]
        simp [List.append_assoc, List.take_append_drop]

theorem bufWrite_buffer_le (flushed buf p : List Nat) :
    (bufWrite flushed buf p).2.length ≤ 4096 := by
  unfold bufWrite
  by_cases h1 : buf.length + p.length ≤ 4096
  · rw [if_pos h1]
    simp
    omega
  · rw [if_neg h1]
    by_cases h2 : buf.length = 0
    · rw [if_pos h2]
      simp
    · rw [if_neg h2]
      by_cases h3 : (p.drop (4096 - buf.length)).length ≤ 4096
      · rw [if_pos h3]
        exact h3
      · rw [if_neg h3]
        simp

/-- `Sync` (`wal.go:132`): flush the buffered writer into the file. -/
def syncW (w : Wal) : Wal :=
  { w with curFlushed := w.curFlushed ++ w.buffer, buffer := [] }

/-- `rotateLog` (`wal.go:340`): flush, open the next segment file, reset
the writer.  The old segment's final on-disk image is its flushed bytes
plus the buffered tail. -/
def rotateLog (w : Wal) : Wal :=
  { w with prevSegments := w.prevSegments ++ [w.curFlushed ++ w.buffer],
           curFlushed := [], buffer := [] }

/-- `checkAndRotateLog` (`wal.go:326`): rotate if the flushed on-disk size
(`logFile.Stat().Size()`, which does not see buffered bytes) plus the
incoming frame would exceed `maxLogSize`. -/
def checkAndRotateLog (w : Wal) (newSize : Nat) : Wal :=
  if (w.curFlushed.length : Int) + newSize > w.maxLogSize then rotateLog w else w

/-- An operation on the WAL: a client `Write` or (modelled)
`CreateCheckpoint`. -/
inductive Op where
  | write (data : List Nat)
  | checkpoint
deriving DecidableEq, Repr

/-- Modelled from the spec: `create_checkpoint` appends a record with
empty payload and the `checkpoint` flag set, sequence number and CRC
assigned exactly as for a normal write (§4.7).  `CreateCheckpoint` itself
is absent from the sources; only its test and `WalData.IsCheckpoint`
exist. -/
def checkpointRecord (seq : Int) : WalData :=
  { NewWalData seq [] with checkpoint := true }

/-- The record appended for an operation at a given sequence number. -/
def recordOfOp (seq : Int) : Op → WalData
  | .write d => NewWalData seq d
  | .checkpoint => checkpointRecord seq

/-- `writeData` (`wal.go:140`): bump the sequence number, build and
marshal the record, rotate if the frame would overflow the current
segment, then write `<len><body>` through the buffered writer. -/
def writeData (w : Wal) (op : Op) : Wal :=
  let seq := toInt32 (w.lastSequenceNo + 1)
  let byteData := jsonMarshal (recordOfOp seq op)
  let size := le4enc byteData.length
  let w1 : Wal := { w with lastSequenceNo := seq }
  let w2 := checkAndRotateLog w1 (byteData.length + size.length)
  let fb := bufWrite w2.curFlushed w2.buffer (size ++ byteData)
  { w2 with curFlushed := fb.1, buffer := fb.2 }

/-- `NewWal` on an empty directory (`wal.go:43`): creates `wal@1.db`,
recovers nothing, `lastSequenceNo = 0`, `maxLogSize = maxKB * 1024`. -/
def initWal (maxLogSizeInKB : Int) : Wal :=
  { prevSegments := [], curFlushed := [], buffer := [],
    maxLogSize := toInt32 (maxLogSizeInKB * 1024), lastSequenceNo := 0 }

/-- Run a sequence of operations. -/
def runOps (w : Wal) : List Op → Wal
  | [] => w
  | op :: ops => runOps (writeData w op) ops

/-- The on-disk bytes of segment `i` (1-based); the current segment shows
only its flushed bytes, since readers open the file. -/
def segmentOnDisk (w : Wal) (i : Nat) : List Nat :=
  if i ≤ w.prevSegments.length then w.prevSegments.getD (i - 1) [] else w.curFlushed

/-- `readData` (`wal.go:175`): decode one segment and project payloads. -/
def readData (w : Wal) (i : Nat) : Except WalErr (List (List Nat)) :=
  (readSegmentBytes (segmentOnDisk w i)).map (fun rs => rs.map WalData.GetData)

/-- The loop of `ReadFromSegment` (`wal.go:104`): read `n` consecutive
segments starting at `i`, concatenating payloads. -/
def ReadFromSegmentAux (w : Wal) : Nat → Nat → Except WalErr (List (List Nat))
  | _, 0 => .ok []
  | i, n + 1 =>
    (readData w i).bind fun cur =>
      (ReadFromSegmentAux w (i + 1) n).map fun rest => cur ++ rest

/-- `ReadFromSegment` (`wal.go:93`): segment numbers below 1 are an
invalid argument; otherwise read segments `segmentNo .. lastSegmentNo`. -/
def ReadFromSegment (w : Wal) (segmentNo : Int) : Except WalErr (List (List Nat)) :=
  if segmentNo < 1 then .error .badSegmentNo
  else ReadFromSegmentAux w segmentNo.toNat (w.lastSegmentNo + 1 - segmentNo.toNat)

/-- `Read` (`wal.go:85`): decode the current segment only. -/
def Read (w : Wal) : Except WalErr (List (List Nat)) :=
  readData w w.lastSegmentNo

/-- `repairSegment` (`wal.go:242`) on segment `i` of the state: rebuild
the byte image; when `i` is the current segment, adopt the rebuilt file as
the live append target with a fresh writer and set `lastSequenceNo` from
the surviving `lastData` (the zero record when nothing survived). -/
def repairSegmentW (w : Wal) (i : Nat) : Except WalErr Wal :=
  (repairSegmentBytes (segmentOnDisk w i)).map fun p =>
    if i = w.lastSegmentNo then
      { w with curFlushed := p.1, buffer := [], lastSequenceNo := p.2.GetLastSequence }
    else
      { w with prevSegments := w.prevSegments.set (i - 1) p.1 }

/-- The loop of `Repair` (`wal.go:122`): repair segments `i, i+1, …`
(`n` of them), threading the state. -/
def RepairLoop : Wal → Nat → Nat → Except WalErr Wal
  | w, _, 0 => .ok w
  | w, i, n + 1 => (repairSegmentW w i).bind fun w2 => RepairLoop w2 (i + 1) n

/-- `Repair` (`wal.go:117`): flush, then repair every segment from 1 to
`lastSegmentNo`. -/
def Repair (w : Wal) : Except WalErr Wal :=
  let w1 := syncW w
  RepairLoop w1 1 w1.lastSegmentNo

/-- Records strictly after the last checkpoint-flagged record of a list,
or `none` when no record is flagged. -/
def tailAfterCkpt : List WalData → Option (List WalData)
  | [] => none
  | r :: rest =>
    match tailAfterCkpt rest with
    | some t => some t
    | none => if r.IsCheckpoint then some rest else none

/-- Modelled from the spec: `read_from_last_checkpoint` (§4.5) scans
segments from `lastSegmentNo` down to 1; in the first (highest) segment
containing a checkpoint-flagged record it takes everything strictly after
the last such record, then appends all payloads of the later segments; if
no checkpoint exists anywhere it behaves as `read_from_segment(1)`.
`ReadFromLastCheckpoint` is absent from the sources; only its test and
`WalData.IsCheckpoint` exist. -/
def ReadFromLastCheckpointAux (w : Wal) : Nat → Except WalErr (List (List Nat))
  | 0 => ReadFromSegment w 1
  | i + 1 =>
    (readSegmentBytes (segmentOnDisk w (i + 1))).bind fun rs =>
      match tailAfterCkpt rs with
      | some t =>
        (ReadFromSegmentAux w (i + 2) (w.lastSegmentNo - (i + 1))).map fun later =>
          t.map WalData.GetData ++ later
      | none => ReadFromLastCheckpointAux w i

/-- Modelled from the spec: entry point of the checkpoint scan
(see `ReadFromLastCheckpointAux`). -/
def ReadFromLastCheckpoint (w : Wal) : Except WalErr (List (List Nat)) :=
  ReadFromLastCheckpointAux w w.lastSegmentNo

/-! ## Abstraction: segment images as lists of records -/

/-- The byte image of a segment holding exactly the given records. -/
def framesOf (rs : List WalData) : List Nat := chunksBytes (rs.map jsonMarshal)

/-- A record whose frame the walks accept: byte-valued payload, marshalled
form shorter than `2^31`, CRC valid. -/
def goodRec (r : WalData) : Prop :=
  (∀ b ∈ r.data, b < 256) ∧ (jsonMarshal r).length < 2 ^ 31 ∧ r.IsValid = true

theorem goodRec_goodBody (r : WalData) (h : goodRec r) : goodBody (jsonMarshal r) :=
  ⟨h.2.1, r, jsonUnmarshal_jsonMarshal r h.1, h.2.2⟩

theorem bodyRec_marshal (r : WalData) (h : ∀ b ∈ r.data, b < 256) :
    bodyRec (jsonMarshal r) = r := by
  simp [bodyRec, jsonUnmarshal_jsonMarshal r h]

theorem recsOf_marshal (rs : List WalData) (h : ∀ r ∈ rs, goodRec r) :
    recsOf (rs.map jsonMarshal) = rs := by
  induction rs with
  | nil => rfl
  | cons r t ih =>
    simp only [recsOf, List.map_map, List.map_cons]
    rw [bodyRec_marshal r (h r (by simp)).1]
    congr 1
    have := ih (fun x hx => h x (by simp [hx]))
    simpa [recsOf, List.map_map] using this

theorem framesOf_append (xs ys : List WalData) :
    framesOf (xs ++ ys) = framesOf xs ++ framesOf ys := by
  simp [framesOf, chunksBytes_append]

theorem framesOf_singleton (r : WalData) :
    framesOf [r] = chunkBytes (jsonMarshal r) := by
  simp [framesOf, chunksBytes, chunkBytes]

/-- Reading a segment image made of good records returns those records. -/
theorem readSegmentBytes_framesOf (rs : List WalData) (h : ∀ r ∈ rs, goodRec r) :
    readSegmentBytes (framesOf rs) = .ok rs := by
  unfold framesOf
  rw [readSegmentBytes_chunks (rs.map jsonMarshal) ?_]
  · rw [recsOf_marshal rs h]
  · intro b hb
    obtain ⟨r, hr, rfl⟩ := List.mem_map.mp hb
    exact goodRec_goodBody r (h r hr)

/-! ### Bounds making records good -/

theorem natDec_length_le (n : Nat) (h : n < 10 ^ 10) : (natDec n).length ≤ 10 := by
  by_cases h0 : n = 0
  · simp [h0, natDec]
  · simp only [natDec, if_neg h0, List.length_reverse, List.length_map]
    exact digitsLE_length_le n n 10 h

theorem intDec_length_le (v : Int) (h : -(2 ^ 32 : Int) ≤ v ∧ v ≤ 2 ^ 32) :
    (intDec v).length ≤ 11 := by
  by_cases hv : v < 0
  · simp only [intDec, if_pos hv, List.length_cons]
    have : (-v).toNat < 10 ^ 10 := by omega
    have := natDec_length_le (-v).toNat this
    omega
  · simp only [intDec, if_neg hv]
    have : v.toNat < 10 ^ 10 := by omega
    have := natDec_length_le v.toNat this
    omega

theorem toInt32_range (n : Int) : -(2 ^ 31 : Int) ≤ toInt32 n ∧ toInt32 n < 2 ^ 31 := by
  unfold toInt32
  omega

theorem jsonMarshal_length_le (r : WalData)
    (hseq : -(2 ^ 32 : Int) ≤ r.seq ∧ r.seq ≤ 2 ^ 32)
    (hcrc : -(2 ^ 32 : Int) ≤ r.crc ∧ r.crc ≤ 2 ^ 32) :
    (jsonMarshal r).length ≤ 2 * r.data.length + 100 := by
  have h1 := intDec_length_le r.seq hseq
  have h2 := intDec_length_le r.crc hcrc
  have h3 := b64encode_length r.data
  have h4 : 4 * ((r.data.length + 2) / 3) ≤ 2 * r.data.length + 4 := by omega
  unfold jsonMarshal
  simp only [List.length_append, List.length_cons, List.length_nil]
  cases r.checkpoint <;> simp only [if_pos, if_neg, Bool.false_eq_true, ite_true, ite_false,
    List.length_cons, List.length_nil] <;> omega

/-- Well-formed client operations: payloads are bytes and small enough for
their frame length to fit an `int32`. -/
def WfOp : Op → Prop
  | .write d => (∀ b ∈ d, b < 256) ∧ d.length ≤ 2 ^ 28
  | .checkpoint => True

theorem checkpointRecord_IsValid (seq : Int) :
    (checkpointRecord seq).IsValid = true := by
  simp [checkpointRecord, NewWalData, WalData.IsValid]

theorem recordOfOp_goodRec (seq : Int) (op : Op)
    (hs : -(2 ^ 31 : Int) ≤ seq ∧ seq < 2 ^ 31) (hop : WfOp op) :
    goodRec (recordOfOp seq op) := by
  cases op with
  | write d =>
    obtain ⟨hd, hlen⟩ := hop
    refine ⟨hd, ?_, NewWalData_IsValid seq d⟩
    have hcr := toInt32_range (crc32 (d ++ [byteOfInt seq]))
    have hb := jsonMarshal_length_le (NewWalData seq d)
      (by simp only [NewWalData]; constructor <;> omega)
      (by simp only [NewWalData]; constructor <;> omega)
    simp only [recordOfOp, NewWalData] at hb ⊢
    omega
  | checkpoint =>
    refine ⟨by simp [recordOfOp, checkpointRecord, NewWalData], ?_, checkpointRecord_IsValid seq⟩
    have hcr := toInt32_range (crc32 ([] ++ [byteOfInt seq]))
    have hseq' : (checkpointRecord seq).seq = seq := rfl
    have hcrc' : (checkpointRecord seq).crc = toInt32 (crc32 ([] ++ [byteOfInt seq])) := rfl
    have hb := jsonMarshal_length_le (checkpointRecord seq)
      (by rw [hseq']; constructor <;> omega)
      (by rw [hcrc']; constructor <;> omega)
    have hdata : (checkpointRecord seq).data = [] := rfl
    rw [hdata] at hb
    simp only [List.length_nil] at hb
    simp only [recordOfOp]
    omega

/-! ### The trace invariant -/

/-- Ghost state: records produced by a trace, continuing from a given last
sequence number (with `int32` wrap-around, as in `writeData`). -/
def runRecs (last : Int) : List Op → List WalData
  | [] => []
  | op :: ops => recordOfOp (toInt32 (last + 1)) op :: runRecs (toInt32 (last + 1)) ops

/-- Ghost state: the sequence counter after a trace. -/
def runLast (last : Int) : List Op → Int
  | [] => last
  | _ :: ops => runLast (toInt32 (last + 1)) ops

theorem runRecs_good (ops : List Op) :
    ∀ last : Int, (∀ op ∈ ops, WfOp op) → ∀ r ∈ runRecs last ops, goodRec r := by
  induction ops with
  | nil => intro last _ r hr; simp [runRecs] at hr
  | cons op ops ih =>
    intro last hwf r hr
    simp only [runRecs, List.mem_cons] at hr
    rcases hr with rfl | hr
    · exact recordOfOp_goodRec _ op (toInt32_range _) (hwf op (by simp))
    · exact ih _ (fun x hx => hwf x (by simp [hx])) r hr

/-- The abstraction relation: the WAL's segment bytes (buffered tail
included) are the frame images of a list of record groups; `Pinit` covers
the rotated-away segments and `Plast` the current one. -/
structure Abs (w : Wal) (Pinit : List (List WalData)) (Plast : List WalData) : Prop where
  prev : w.prevSegments = Pinit.map framesOf
  cur : w.curFlushed ++ w.buffer = framesOf Plast

theorem initWal_abs (kb : Int) : Abs (initWal kb) [] [] := by
  constructor <;> simp [initWal, framesOf, chunksBytes]

theorem writeData_abs (w : Wal) (op : Op) (Pinit : List (List WalData)) (Plast : List WalData)
    (h : Abs w Pinit Plast) :
    (Abs (writeData w op) (Pinit ++ [Plast]) [recordOfOp (toInt32 (w.lastSequenceNo + 1)) op] ∨
      Abs (writeData w op) Pinit (Plast ++ [recordOfOp (toInt32 (w.lastSequenceNo + 1)) op])) ∧
    (writeData w op).lastSequenceNo = toInt32 (w.lastSequenceNo + 1) := by
  simp only [writeData, checkAndRotateLog, rotateLog]
  set r := recordOfOp (toInt32 (w.lastSequenceNo + 1)) op with hr
  split_ifs with hc
  · refine ⟨Or.inl ⟨?_, ?_⟩, rfl⟩
    · simp only [h.prev, List.map_append, List.map]
      rw [h.cur]
    · have hconc := bufWrite_concat ([] : List Nat) []
        (le4enc (jsonMarshal r).length ++ jsonMarshal r)
      simp only at hconc ⊢
      rw [hconc]
      rw [framesOf_singleton]
      rfl
  · refine ⟨Or.inr ⟨?_, ?_⟩, rfl⟩
    · exact h.prev
    · have hconc := bufWrite_concat w.curFlushed w.buffer
        (le4enc (jsonMarshal r).length ++ jsonMarshal r)
      simp only at hconc ⊢
      rw [hconc, h.cur, framesOf_append, framesOf_singleton]
      rfl

theorem runOps_abs :
    ∀ (ops : List Op) (w : Wal) (Pinit : List (List WalData)) (Plast : List WalData),
      Abs w Pinit Plast →
      ∃ Qinit Qlast, Abs (runOps w ops) Qinit Qlast ∧
        (Qinit ++ [Qlast]).flatten =
          (Pinit ++ [Plast]).flatten ++ runRecs w.lastSequenceNo ops ∧
        (runOps w ops).lastSequenceNo = runLast w.lastSequenceNo ops := by
  intro ops
  induction ops with
  | nil =>
    intro w Pinit Plast h
    exact ⟨Pinit, Plast, h, by simp [runRecs], by simp [runLast, runOps]⟩
  | cons op ops ih =>
    intro w Pinit Plast h
    obtain ⟨habs, hseq⟩ := writeData_abs w op Pinit Plast h
    rcases habs with habs | habs
    · obtain ⟨Qinit, Qlast, hQ, hflat, hlast⟩ := ih (writeData w op) (Pinit ++ [Plast])
        [recordOfOp (toInt32 (w.lastSequenceNo + 1)) op] habs
      refine ⟨Qinit, Qlast, hQ, ?_, ?_⟩
      · rw [hflat, hseq]
        simp [runRecs, List.append_assoc]
      · simp only [runOps, runLast]
        rw [hlast, hseq]
    · obtain ⟨Qinit, Qlast, hQ, hflat, hlast⟩ := ih (writeData w op) Pinit
        (Plast ++ [recordOfOp (toInt32 (w.lastSequenceNo + 1)) op]) habs
      refine ⟨Qinit, Qlast, hQ, ?_, ?_⟩
      · rw [hflat, hseq]
        simp [runRecs, List.append_assoc]
      · simp only [runOps, runLast]
        rw [hlast, hseq]

@[simp] theorem except_map_ok {ε α β : Type} (f : α → β) (x : α) :
    Except.map f (Except.ok x : Except ε α) = .ok (f x) := rfl

@[simp] theorem except_map_error {ε α β : Type} (f : α → β) (e : ε) :
    Except.map f (Except.error e : Except ε α) = .error e := rfl

@[simp] theorem except_bind_ok {ε α β : Type} (g : α → Except ε β) (x : α) :
    Except.bind (Except.ok x : Except ε α) g = g x := rfl

@[simp] theorem except_bind_error {ε α β : Type} (g : α → Except ε β) (e : ε) :
    Except.bind (Except.error e : Except ε α) g = .error e := rfl

theorem syncW_abs (w : Wal) (Pinit : List (List WalData)) (Plast : List WalData)
    (h : Abs w Pinit Plast) : Abs (syncW w) Pinit Plast := by
  constructor
  · exact h.prev
  · simp only [syncW, List.append_nil]
    exact h.cur

/-- After a flush, every segment's on-disk bytes are the frame image of
its record group. -/
theorem segmentOnDisk_all (w : Wal) (Pinit : List (List WalData)) (Plast : List WalData)
    (h : Abs w Pinit Plast) (hbuf : w.buffer = []) :
    ∀ j : Nat, j < (Pinit ++ [Plast]).length →
      segmentOnDisk w (j + 1) = framesOf ((Pinit ++ [Plast]).getD j []) := by
  intro j hj
  simp only [List.length_append, List.length_cons, List.length_nil] at hj
  by_cases hji : j < Pinit.length
  · have hple : j + 1 ≤ w.prevSegments.length := by
      rw [h.prev, List.length_map]
      omega
    simp only [segmentOnDisk, if_pos hple, Nat.add_sub_cancel]
    rw [h.prev]
    rw [List.getD_eq_getElem?_getD, List.getD_eq_getElem?_getD, List.getElem?_map,
      List.getElem?_append_left hji]
    have : j < Pinit.length := hji
    rw [List.getElem?_eq_getElem this]
    simp
  · have hj' : j = Pinit.length := by omega
    subst hj'
    have hgt : ¬ (Pinit.length + 1 ≤ w.prevSegments.length) := by
      rw [h.prev, List.length_map]
      omega
    simp only [segmentOnDisk, if_neg hgt]
    have hcur := h.cur
    rw [hbuf, List.append_nil] at hcur
    rw [hcur]
    congr 1
    rw [List.getD_eq_getElem?_getD, List.getElem?_append_right (by omega)]
    simp

/-- `lastSegmentNo` counts the record groups. -/
theorem lastSegmentNo_abs (w : Wal) (Pinit : List (List WalData)) (Plast : List WalData)
    (h : Abs w Pinit Plast) : w.lastSegmentNo = Pinit.length + 1 := by
  simp [Wal.lastSegmentNo, h.prev]

/-- The `ReadFromSegment` loop over segments whose images decode to the
groups of `L`. -/
theorem ReadFromSegmentAux_abs :
    ∀ (n i : Nat) (w : Wal) (L : List (List WalData)),
      (∀ j : Nat, j < L.length → segmentOnDisk w (j + 1) = framesOf (L.getD j [])) →
      (∀ r ∈ L.flatten, goodRec r) →
      i + n = L.length + 1 → 1 ≤ i →
      ReadFromSegmentAux w i n = .ok (((L.drop (i - 1)).flatten).map WalData.GetData) := by
  intro n
  induction n with
  | zero =>
    intro i w L hseg hgood hin hi
    have : L.length ≤ i - 1 := by omega
    rw [List.drop_eq_nil_of_le this]
    simp [ReadFromSegmentAux]
  | succ n ih =>
    intro i w L hseg hgood hin hi
    have hilt : i - 1 < L.length := by omega
    obtain ⟨i', rfl⟩ : ∃ i', i = i' + 1 := ⟨i - 1, by omega⟩
    simp only [Nat.add_sub_cancel] at hilt ⊢
    have hstep := hseg i' hilt
    simp only [ReadFromSegmentAux, readData, hstep]
    have hgood_i : ∀ r ∈ L.getD i' [], goodRec r := by
      intro r hr
      apply hgood
      rw [List.getD_eq_getElem?_getD, List.getElem?_eq_getElem hilt] at hr
      simp only [Option.getD_some] at hr
      exact List.mem_flatten.mpr ⟨L[i'], List.getElem_mem hilt, hr⟩
    rw [readSegmentBytes_framesOf _ hgood_i]
    simp only [except_map_ok, except_bind_ok]
    have hrec := ih (i' + 1 + 1) w L hseg hgood (by omega) (by omega)
    rw [hrec]
    simp only [Nat.add_sub_cancel] at *
    simp only [except_map_ok, Except.ok.injEq]
    have hdrop : L.drop i' = L.getD i' [] :: L.drop (i' + 1) := by
      rw [List.getD_eq_getElem?_getD, List.getElem?_eq_getElem hilt]
      simp only [Option.getD_some]
      exact (List.drop_eq_getElem_cons hilt)
    rw [hdrop]
    simp [List.map_append]

/-- `ReadFromSegment w 1` under the abstraction: all payloads in order. -/
theorem ReadFromSegment_one_abs (w : Wal) (L : List (List WalData))
    (hseg : ∀ j : Nat, j < L.length → segmentOnDisk w (j + 1) = framesOf (L.getD j []))
    (hgood : ∀ r ∈ L.flatten, goodRec r)
    (hlen : w.lastSegmentNo = L.length) :
    ReadFromSegment w 1 = .ok (L.flatten.map WalData.GetData) := by
  rw [ReadFromSegment, if_neg (by omega)]
  have h1 : (1 : Int).toNat = 1 := rfl
  rw [h1, hlen]
  rw [ReadFromSegmentAux_abs (L.length + 1 - 1) 1 w L hseg hgood (by omega) (by omega)]
  simp

/-! ## C5: encode/decode round trip and CRC validity -/

/-- Modelled from the spec: §4.1 `encode(seq, data, checkpoint)` builds the
record exactly as `NewWalData` does and sets the checkpoint flag (the
source's `NewWalData` always stores `false`; the flagged variant comes
from the missing `CreateCheckpoint`). -/
def encodeRecord (seq : Int) (data : List Nat) (ckpt : Bool) : WalData :=
  { NewWalData seq data with checkpoint := ckpt }

/-- `encode` produces the frame: 4-byte little-endian length plus the
marshalled record. -/
def encodeFrame (seq : Int) (data : List Nat) (ckpt : Bool) : List Nat :=
  chunkBytes (jsonMarshal (encodeRecord seq data ckpt))

/-- `decode` of a single frame, mirroring one iteration of `readSegment`:
read the length, take that many bytes, unmarshal. -/
def decodeFrame (bs : List Nat) : Option WalData :=
  match bs with
  | a :: b :: c :: d :: rest =>
    if 2 ^ 31 ≤ le4dec a b c d then none
    else if rest.length < le4dec a b c d then none
    else jsonUnmarshal (rest.take (le4dec a b c d))
  | _ => none

theorem encodeRecord_IsValid (seq : Int) (data : List Nat) (ckpt : Bool) :
    (encodeRecord seq data ckpt).IsValid = true := by
  simp [encodeRecord, NewWalData, WalData.IsValid]

/-- C5: for every sequence number, payload and checkpoint flag, decoding
the frame produced by `encode` succeeds and yields a record that passes
`is_valid()`: its stored CRC equals the IEEE CRC-32 of
`data ++ [seq mod 256]`. -/
theorem c5_decode_encode_is_valid (seq : Int) (data : List Nat) (ckpt : Bool)
    (hseq : -(2 ^ 31 : Int) ≤ seq ∧ seq < 2 ^ 31)
    (hdata : ∀ b ∈ data, b < 256) (hlen : data.length ≤ 2 ^ 28) :
    decodeFrame (encodeFrame seq data ckpt) = some (encodeRecord seq data ckpt) ∧
    (encodeRecord seq data ckpt).IsValid = true ∧
    (encodeRecord seq data ckpt).crc = toInt32 (crc32 (data ++ [byteOfInt seq])) := by
  refine ⟨?_, encodeRecord_IsValid seq data ckpt, rfl⟩
  have hcr := toInt32_range (crc32 (data ++ [byteOfInt seq]))
  have hml := jsonMarshal_length_le (encodeRecord seq data ckpt)
    (by constructor <;> simp only [encodeRecord, NewWalData] <;> omega)
    (by constructor <;> simp only [encodeRecord, NewWalData] <;> omega)
  have hdl : (encodeRecord seq data ckpt).data = data := rfl
  rw [hdl] at hml
  have hlt : (jsonMarshal (encodeRecord seq data ckpt)).length < 2 ^ 31 := by omega
  set b := jsonMarshal (encodeRecord seq data ckpt) with hb
  have hdec : le4dec (b.length % 256) (b.length / 256 % 256) (b.length / 65536 % 256)
      (b.length / 16777216 % 256) = b.length := le4dec_le4enc _ (by omega)
  have hshape : encodeFrame seq data ckpt =
      b.length % 256 :: b.length / 256 % 256 :: b.length / 65536 % 256 ::
        b.length / 16777216 % 256 :: b := by
    simp [encodeFrame, chunkBytes, le4enc, hb]
  rw [hshape]
  simp only [decodeFrame, hdec]
  rw [if_neg (by omega), if_neg (by omega), List.take_length]
  exact jsonUnmarshal_jsonMarshal _ (by rw [hdl]; exact hdata)

/-- Witness for C5 at `seq = 1`, `data = "a"`, `ckpt = true`. -/
theorem c5_witness :
    decodeFrame (encodeFrame 1 [97] true) = some (encodeRecord 1 [97] true) ∧
    (encodeRecord 1 [97] true).IsValid = true ∧
    (encodeRecord 1 [97] true).crc = toInt32 (crc32 ([97] ++ [byteOfInt 1])) :=
  c5_decode_encode_is_valid 1 [97] true (by decide) (by decide) (by decide)

/-! ## C7: the error taxonomy of `readSegment` -/

/-- C7 (amended): reading a segment made of CRC-valid frames returns their
records; a 1–3 byte tail (short length read) or a short payload read fails
with `ErrRead`; a frame body that fails to deserialize fails with the
distinct ad-hoc load error (`errors.New("failed to load data from log")`),
not `ErrRead`; a frame that deserializes but fails the CRC check fails
with `ErrBrokenData`; a negative `int32` length panics in `make`. -/
theorem c7_read_error_taxonomy (rs : List WalData) (hg : ∀ r ∈ rs, goodRec r) :
    readSegmentBytes (framesOf rs) = .ok rs ∧
    (∀ t : List Nat, 1 ≤ t.length → t.length ≤ 3 →
      readSegmentBytes (framesOf rs ++ t) = .error .readFailed) ∧
    (∀ (a b c d : Nat) (rest : List Nat), le4dec a b c d < 2 ^ 31 →
      rest.length < le4dec a b c d →
      readSegmentBytes (framesOf rs ++ a :: b :: c :: d :: rest) = .error .readFailed) ∧
    (∀ (a b c d : Nat) (rest : List Nat), le4dec a b c d < 2 ^ 31 →
      ¬ rest.length < le4dec a b c d →
      jsonUnmarshal (rest.take (le4dec a b c d)) = none →
      readSegmentBytes (framesOf rs ++ a :: b :: c :: d :: rest) = .error .loadFailed) ∧
    (∀ (a b c d : Nat) (rest : List Nat) (r : WalData), le4dec a b c d < 2 ^ 31 →
      ¬ rest.length < le4dec a b c d →
      jsonUnmarshal (rest.take (le4dec a b c d)) = some r → r.IsValid = false →
      readSegmentBytes (framesOf rs ++ a :: b :: c :: d :: rest) = .error .brokenData) ∧
    (∀ (a b c d : Nat) (rest : List Nat), 2 ^ 31 ≤ le4dec a b c d →
      readSegmentBytes (framesOf rs ++ a :: b :: c :: d :: rest) = .error .panicked) := by
  have hbodies : ∀ b ∈ rs.map jsonMarshal, goodBody b := by
    intro b hb
    obtain ⟨r, hr, rfl⟩ := List.mem_map.mp hb
    exact goodRec_goodBody r (hg r hr)
  refine ⟨readSegmentBytes_framesOf rs hg, ?_, ?_, ?_, ?_, ?_⟩
  · intro t h1 h3
    rw [show framesOf rs = chunksBytes (rs.map jsonMarshal) from rfl,
      readSegmentBytes_append_tail _ _ hbodies]
    match t, h1, h3 with
    | [a], _, _ => rfl
    | [a, b], _, _ => rfl
    | [a, b, c], _, _ => rfl
  · intro a b c d rest hn hshort
    rw [show framesOf rs = chunksBytes (rs.map jsonMarshal) from rfl,
      readSegmentBytes_append_tail _ _ hbodies]
    have : (a :: b :: c :: d :: rest).length + 1 = (rest.length + 4) + 1 := by simp
    rw [this]
    simp only [readFramesAux]
    rw [if_neg (by omega), if_pos hshort]
  · intro a b c d rest hn hlong hu
    rw [show framesOf rs = chunksBytes (rs.map jsonMarshal) from rfl,
      readSegmentBytes_append_tail _ _ hbodies]
    have : (a :: b :: c :: d :: rest).length + 1 = (rest.length + 4) + 1 := by simp
    rw [this]
    simp only [readFramesAux]
    rw [if_neg (by omega), if_neg hlong, hu]
  · intro a b c d rest r hn hlong hu hv
    rw [show framesOf rs = chunksBytes (rs.map jsonMarshal) from rfl,
      readSegmentBytes_append_tail _ _ hbodies]
    have : (a :: b :: c :: d :: rest).length + 1 = (rest.length + 4) + 1 := by simp
    rw [this]
    simp only [readFramesAux]
    rw [if_neg (by omega), if_neg hlong, hu]
    simp [hv]
  · intro a b c d rest hn
    rw [show framesOf rs = chunksBytes (rs.map jsonMarshal) from rfl,
      readSegmentBytes_append_tail _ _ hbodies]
    have : (a :: b :: c :: d :: rest).length + 1 = (rest.length + 4) + 1 := by simp
    rw [this]
    simp only [readFramesAux]
    rw [if_pos hn]

/-- Witness for C7 on the segment `[record "a"]`. -/
theorem c7_witness :
    readSegmentBytes (framesOf [NewWalData 1 [97]]) = .ok [NewWalData 1 [97]] :=
  (c7_read_error_taxonomy [NewWalData 1 [97]]
    (by intro r hr; simp only [List.mem_singleton] at hr; subst hr; exact ⟨by decide, by decide, by decide⟩)).1

/-- Counterexample for C7 as stated: a frame whose body fails to
deserialize (`"x"`) makes the read fail with the ad-hoc load error, not
with `ErrRead` as the claim requires. -/
theorem c7_counterexample :
    readSegmentBytes [1, 0, 0, 0, 120] = .error .loadFailed ∧
    WalErr.loadFailed ≠ WalErr.readFailed := by decide

/-! ## C1: repair and the longest valid prefix -/

/-- Byte strings at which the repair walk stops cleanly: end of file, a
short length read, a short payload read, an unmarshal failure, or a CRC
failure (a non-negative length is required, since a negative one
panics). -/
def stopsWalk (t : List Nat) : Prop :=
  t = [] ∨ t.length < 4 ∨
  (∃ a b c d rest, t = a :: b :: c :: d :: rest ∧ le4dec a b c d < 2 ^ 31 ∧
    (rest.length < le4dec a b c d ∨ jsonUnmarshal (rest.take (le4dec a b c d)) = none ∨
      ∃ r, jsonUnmarshal (rest.take (le4dec a b c d)) = some r ∧ r.IsValid = false))

theorem repairFramesAux_stops (f : Nat) (t out : List Nat) (ld : WalData)
    (h : stopsWalk t) : repairFramesAux (f + 1) t out ld = .ok (out, ld) := by
  rcases h with rfl | hlen | ⟨a, b, c, d, rest, rfl, hn, hcase⟩
  · rfl
  · match t, hlen with
    | [], _ => rfl
    | [a], _ => rfl
    | [a, b], _ => rfl
    | [a, b, c], _ => rfl
    | a :: b :: c :: d :: rest, hlen => simp at hlen; omega
  · simp only [repairFramesAux]
    rw [if_neg (by omega)]
    rcases hcase with hshort | hu | ⟨r, hu, hv⟩
    · rw [if_pos hshort]
    · rcases Nat.lt_or_ge rest.length (le4dec a b c d) with hc | hc
      · rw [if_pos hc]
      · rw [if_neg (by omega), hu]
    · rcases Nat.lt_or_ge rest.length (le4dec a b c d) with hc | hc
      · rw [if_pos hc]
      · rw [if_neg (by omega), hu]
        simp [hv]

/-- C1 (amended): repairing a segment of valid frames with an arbitrary
byte suffix appended (when the walk does not panic on a negative length)
produces a byte image that is a prefix of the input whose decoded contents
extend the pre-corruption records by exactly the valid frames found at the
start of the suffix — so when the suffix does not begin with further valid
frames, the decoded contents equal the longest valid-CRC prefix of the
pre-corruption segment; and the rebuilt image never holds more records
than the walk accepted from the input. -/
theorem c1_repair_valid_prefix (rs : List WalData) (suffix t : List Nat) (ld : WalData)
    (hg : ∀ r ∈ rs, goodRec r)
    (hbytes : ∀ x ∈ suffix, x < 256)
    (hok : repairSegmentBytes (framesOf rs ++ suffix) = .ok (t, ld)) :
    (∃ extra, readSegmentBytes t = .ok (rs ++ extra)) ∧
    (∃ u, framesOf rs ++ suffix = t ++ u) ∧
    (stopsWalk suffix → t = framesOf rs ∧ readSegmentBytes t = .ok rs) := by
  have hbodies : ∀ b ∈ rs.map jsonMarshal, goodBody b := by
    intro b hb
    obtain ⟨r, hr, rfl⟩ := List.mem_map.mp hb
    exact goodRec_goodBody r (hg r hr)
  have htail := repairSegmentBytes_append_tail (rs.map jsonMarshal) suffix hbodies
  rw [show framesOf rs = chunksBytes (rs.map jsonMarshal) from rfl] at hok
  rw [htail] at hok
  obtain ⟨bodies, rest2, hgood2, hdecomp, hres1, hres2⟩ :=
    repairFramesAux_ok (suffix.length + 1) suffix (chunksBytes (rs.map jsonMarshal))
      (((recsOf (rs.map jsonMarshal)).getLast?).getD zeroWalData) (t, ld) hbytes
      (by omega) hok
  simp only at hres1 hres2
  refine ⟨⟨recsOf bodies, ?_⟩, ⟨rest2, ?_⟩, ?_⟩
  · rw [hres1, ← chunksBytes_append]
    rw [readSegmentBytes_chunks _ ?_]
    · rw [show recsOf (rs.map jsonMarshal ++ bodies) =
          recsOf (rs.map jsonMarshal) ++ recsOf bodies by simp [recsOf]]
      rw [recsOf_marshal rs hg]
    · intro b hb
      rcases List.mem_append.mp hb with hb | hb
      · exact hbodies b hb
      · exact hgood2 b hb
  · rw [hres1, hdecomp, List.append_assoc]
    rfl
  · intro hstop
    have hstopped := repairFramesAux_stops suffix.length suffix
      (chunksBytes (rs.map jsonMarshal))
      (((recsOf (rs.map jsonMarshal)).getLast?).getD zeroWalData) hstop
    rw [hstopped] at hok
    have ht : t = chunksBytes (rs.map jsonMarshal) := by
      have := hok.symm
      simp only [Except.ok.injEq, Prod.mk.injEq] at this
      exact this.1
    subst ht
    exact ⟨rfl, readSegmentBytes_framesOf rs hg⟩

/-- Witness for C1's amended theorem: repairing
`frame("a") ++ "corrupted data"` keeps exactly the one valid record (the
suffix stops the walk at its short, non-deserializable length read). -/
theorem c1_witness :
    (∃ extra, readSegmentBytes (framesOf [NewWalData 1 [97]]) = .ok ([NewWalData 1 [97]] ++ extra)) ∧
    (∃ u, framesOf [NewWalData 1 [97]] ++
        [99, 111, 114, 114, 117, 112, 116, 101, 100, 32, 100, 97, 116, 97] =
        framesOf [NewWalData 1 [97]] ++ u) ∧
    (stopsWalk [99, 111, 114, 114, 117, 112, 116, 101, 100, 32, 100, 97, 116, 97] →
      framesOf [NewWalData 1 [97]] = framesOf [NewWalData 1 [97]] ∧
      readSegmentBytes (framesOf [NewWalData 1 [97]]) = .ok [NewWalData 1 [97]]) :=
  c1_repair_valid_prefix [NewWalData 1 [97]]
    [99, 111, 114, 114, 117, 112, 116, 101, 100, 32, 100, 97, 116, 97]
    (framesOf [NewWalData 1 [97]]) (NewWalData 1 [97])
    (by intro r hr; simp only [List.mem_singleton] at hr; subst hr
        exact ⟨by decide, by decide, by decide⟩)
    (by decide)
    (by decide)

/-- Counterexample for C1 as stated: when the appended suffix happens to
itself be a CRC-valid frame, `repair` keeps it, so the repaired segment's
decoded contents are not the longest valid-CRC prefix of the
pre-corruption segment (`[record1]`) but strictly more. -/
theorem c1_counterexample :
    repairSegmentBytes (framesOf [NewWalData 1 [97]] ++ framesOf [NewWalData 2 [98]]) =
      .ok (framesOf [NewWalData 1 [97]] ++ framesOf [NewWalData 2 [98]], NewWalData 2 [98]) ∧
    readSegmentBytes (framesOf [NewWalData 1 [97]] ++ framesOf [NewWalData 2 [98]]) =
      .ok [NewWalData 1 [97], NewWalData 2 [98]] ∧
    [NewWalData 1 [97], NewWalData 2 [98]] ≠ [NewWalData 1 [97]] := by decide

/-! ## C6: repair is idempotent -/

/-- Repairing an already rebuilt image is the identity. -/
theorem repairSegmentBytes_idem (bs t : List Nat) (ld : WalData)
    (hbytes : ∀ x ∈ bs, x < 256)
    (hok : repairSegmentBytes bs = .ok (t, ld)) :
    repairSegmentBytes t = .ok (t, ld) := by
  obtain ⟨bodies, rest, hgood, hdecomp, hres1, hres2⟩ :=
    repairFramesAux_ok (bs.length + 1) bs [] zeroWalData (t, ld) hbytes (by omega) hok
  simp only [List.nil_append] at hres1 hres2
  subst hres1
  have := repairSegmentBytes_append_tail bodies [] hgood
  rw [List.append_nil] at this
  rw [this]
  simp only [List.length_nil, Nat.zero_add, repairFramesAux]
  rw [hres2]

theorem list_set_getD_self {α : Type} (l : List α) (n : Nat) (d : α) (h : n < l.length) :
    l.set n (l.getD n d) = l := by
  apply List.ext_getElem?
  intro m
  by_cases hm : m = n
  · subst hm
    rw [List.getElem?_set_eq (by omega)]
    rw [List.getD_eq_getElem?_getD, List.getElem?_eq_getElem h]
    simp
  · rw [List.getElem?_set_ne (by omega)]

theorem segmentOnDisk_last (w : Wal) : segmentOnDisk w w.lastSegmentNo = w.curFlushed := by
  simp [segmentOnDisk, Wal.lastSegmentNo]

theorem syncW_id (w : Wal) (h : w.buffer = []) : syncW w = w := by
  cases w
  simp only [syncW] at *
  simp [h]

/-- What one pass of the repair loop establishes: segment byte images are
replaced by their rebuilt versions, and the current segment additionally
resets the writer and `lastSequenceNo`. -/
theorem RepairLoop_spec :
    ∀ (n i : Nat) (w w₂ : Wal),
      1 ≤ i → i + n = w.lastSegmentNo + 1 →
      RepairLoop w i n = .ok w₂ →
      w₂.prevSegments.length = w.prevSegments.length ∧
      w₂.maxLogSize = w.maxLogSize ∧
      (∀ j : Nat, 1 ≤ j → j < i → segmentOnDisk w₂ j = segmentOnDisk w j) ∧
      (∀ j : Nat, i ≤ j → j ≤ w.lastSegmentNo →
        ∃ ld, repairSegmentBytes (segmentOnDisk w j) = .ok (segmentOnDisk w₂ j, ld) ∧
          (j = w.lastSegmentNo → w₂.lastSequenceNo = ld.GetLastSequence ∧ w₂.buffer = [])) ∧
      (n = 0 → w₂ = w) := by
  intro n
  induction n with
  | zero =>
    intro i w w₂ hi hin hok
    have hw : w₂ = w := by
      have : RepairLoop w i 0 = .ok w := rfl
      rw [this] at hok
      exact (Except.ok.injEq _ _ ▸ hok.symm :)
    subst hw
    refine ⟨rfl, rfl, fun j _ _ => rfl, ?_, fun _ => rfl⟩
    intro j hj1 hj2
    exact (by omega : False).elim
  | succ n ih =>
    intro i w w₂ hi hin hok
    rw [RepairLoop] at hok
    cases hrep : repairSegmentW w i with
    | error e => rw [hrep] at hok; simp at hok
    | ok w1 =>
      rw [hrep] at hok
      simp only [except_bind_ok] at hok
      unfold repairSegmentW at hrep
      cases hrb : repairSegmentBytes (segmentOnDisk w i) with
      | error e => rw [hrb] at hrep; simp at hrep
      | ok p =>
        rw [hrb] at hrep
        simp only [except_map_ok, Except.ok.injEq] at hrep
        by_cases hlast : i = w.lastSegmentNo
        · -- repairing the current segment; the loop then terminates
          have hn0 : n = 0 := by omega
          subst hn0
          have hw2 : w₂ = w1 := by
            have : RepairLoop w1 (i + 1) 0 = .ok w1 := rfl
            rw [this] at hok
            exact (Except.ok.injEq _ _ ▸ hok.symm :)
          subst hw2
          rw [if_pos hlast] at hrep
          subst hrep
          refine ⟨rfl, rfl, ?_, ?_, by omega⟩
          · intro j hj1 hj2
            simp only [segmentOnDisk]
            have : j ≤ w.prevSegments.length := by
              simp only [Wal.lastSegmentNo] at hlast
              omega
            rw [if_pos this, if_pos this]
          · intro j hj1 hj2
            have hj : j = w.lastSegmentNo := by omega
            subst hj
            refine ⟨p.2, ?_, fun _ => ⟨rfl, rfl⟩⟩
            have hseg : segmentOnDisk
                { w with
                    curFlushed := p.1
                    buffer := []
                    lastSequenceNo := p.2.GetLastSequence }
                w.lastSegmentNo = p.1 := by
              simp [segmentOnDisk, Wal.lastSegmentNo]
            rw [hseg, ← hlast, hrb]
        · -- repairing an earlier segment
          rw [if_neg hlast] at hrep
          subst hrep
          have hile : i ≤ w.prevSegments.length := by
            simp only [Wal.lastSegmentNo] at hin hlast ⊢
            omega
          have hlen1 : ({ w with prevSegments := w.prevSegments.set (i - 1) p.1 } : Wal).prevSegments.length
              = w.prevSegments.length := by
            simp [List.length_set]
          have hlseg1 : ({ w with prevSegments := w.prevSegments.set (i - 1) p.1 } : Wal).lastSegmentNo
              = w.lastSegmentNo := by
            simp [Wal.lastSegmentNo, List.length_set]
          obtain ⟨hl2, hm2, hu2, hr2, _⟩ := ih (i + 1)
            { w with prevSegments := w.prevSegments.set (i - 1) p.1 } w₂
            (by omega) (by rw [hlseg1]; omega) hok
          have hsegother : ∀ j : Nat, 1 ≤ j → j ≠ i →
              segmentOnDisk { w with prevSegments := w.prevSegments.set (i - 1) p.1 } j =
                segmentOnDisk w j := by
            intro j hj1 hj2
            simp only [segmentOnDisk, List.length_set]
            by_cases hjl : j ≤ w.prevSegments.length
            · rw [if_pos hjl, if_pos hjl]
              rw [List.getD_eq_getElem?_getD, List.getD_eq_getElem?_getD,
                List.getElem?_set_ne (by omega)]
            · rw [if_neg hjl, if_neg hjl]
          have hsegi : segmentOnDisk { w with prevSegments := w.prevSegments.set (i - 1) p.1 } i =
              p.1 := by
            simp only [segmentOnDisk, List.length_set, if_pos hile]
            rw [List.getD_eq_getElem?_getD, List.getElem?_set_eq (by omega)]
            simp
          refine ⟨by rw [hl2, hlen1], hm2, ?_, ?_, by omega⟩
          · intro j hj1 hj2
            rw [hu2 j hj1 (by omega), hsegother j hj1 (by omega)]
          · intro j hj1 hj2
            by_cases hji : j = i
            · subst hji
              refine ⟨p.2, ?_, fun hc => absurd hc hlast⟩
              rw [hu2 j (by omega) (by omega), hsegi, hrb]
            · obtain ⟨ld, hld, hldlast⟩ := hr2 j (by omega) (by rw [hlseg1]; omega)
              refine ⟨ld, ?_, ?_⟩
              · rw [← hsegother j (by omega) hji]
                exact hld
              · intro hc
                exact hldlast (by rw [hlseg1]; exact hc)

/-- When every segment is already a fixed point of repair and the writer
state matches, the repair loop is the identity. -/
theorem RepairLoop_fixpoint :
    ∀ (n i : Nat) (w : Wal),
      1 ≤ i → i + n = w.lastSegmentNo + 1 →
      (∀ j : Nat, i ≤ j → j ≤ w.lastSegmentNo →
        ∃ ld, repairSegmentBytes (segmentOnDisk w j) = .ok (segmentOnDisk w j, ld) ∧
          (j = w.lastSegmentNo → w.lastSequenceNo = ld.GetLastSequence ∧ w.buffer = [])) →
      RepairLoop w i n = .ok w := by
  intro n
  induction n with
  | zero => intro i w _ _ _; rfl
  | succ n ih =>
    intro i w hi hin hfix
    obtain ⟨ld, hld, hlast⟩ := hfix i (le_refl i) (by simp only [Wal.lastSegmentNo] at hin ⊢; omega)
    rw [RepairLoop]
    unfold repairSegmentW
    rw [hld]
    simp only [except_map_ok, except_bind_ok]
    by_cases hil : i = w.lastSegmentNo
    · obtain ⟨hseq, hbuf⟩ := hlast hil
      rw [if_pos hil]
      have hw1 : ({ w with
            curFlushed := segmentOnDisk w i
            buffer := []
            lastSequenceNo := ld.GetLastSequence } : Wal) = w := by
        rw [hil, segmentOnDisk_last, ← hseq, ← hbuf]
      rw [hw1]
      have hn0 : n = 0 := by simp only [Wal.lastSegmentNo] at hin hil; omega
      subst hn0
      rfl
    · rw [if_neg hil]
      have hile : i ≤ w.prevSegments.length := by
        simp only [Wal.lastSegmentNo] at hin hil
        omega
      have hsegi : segmentOnDisk w i = w.prevSegments.getD (i - 1) [] := by
        simp [segmentOnDisk, hile]
      have hw1 : ({ w with prevSegments := w.prevSegments.set (i - 1) (segmentOnDisk w i) } : Wal)
          = w := by
        rw [hsegi, list_set_getD_self _ _ _ (by omega)]
      rw [hw1]
      exact ih (i + 1) w (by omega) (by omega) (fun j hj1 hj2 => hfix j (by omega) hj2)

/-- C6: repair is idempotent.  If `Repair` succeeds, then running it again
on the result succeeds and changes nothing — in particular every segment
keeps the same byte image. -/
theorem c6_repair_idempotent (w w' : Wal)
    (hbytes : ∀ j : Nat, j < w.lastSegmentNo → ∀ x ∈ segmentOnDisk (syncW w) (j + 1), x < 256)
    (hok : Repair w = .ok w') :
    Repair w' = .ok w' := by
  simp only [Repair] at hok ⊢
  have hsync_last : (syncW w).lastSegmentNo = w.lastSegmentNo := rfl
  rw [hsync_last] at hok
  obtain ⟨hlen, hmax, huntouched, hrange, _⟩ :=
    RepairLoop_spec w.lastSegmentNo 1 (syncW w) w' (by omega)
      (by rw [hsync_last]; omega) hok
  have hlastw' : w'.lastSegmentNo = w.lastSegmentNo := by
    simp only [Wal.lastSegmentNo]
    rw [hlen]
    rfl
  obtain ⟨ldl, hldl, hll⟩ := hrange w.lastSegmentNo
    (by simp [Wal.lastSegmentNo]) (by rw [hsync_last])
  obtain ⟨hseq', hbuf'⟩ := hll (by rw [hsync_last])
  rw [syncW_id w' hbuf', hlastw']
  apply RepairLoop_fixpoint w.lastSegmentNo 1 w' (by omega) (by rw [hlastw']; omega)
  intro j hj1 hj2
  rw [hlastw'] at hj2
  obtain ⟨ld, hld, hldlast⟩ := hrange j hj1 (by rw [hsync_last]; omega)
  refine ⟨ld, ?_, ?_⟩
  · apply repairSegmentBytes_idem _ _ _ _ hld
    intro x hx
    obtain ⟨j', rfl⟩ : ∃ j', j = j' + 1 := ⟨j - 1, by omega⟩
    exact hbytes j' (by omega) x hx
  · intro hc
    exact hldlast (by rw [hsync_last, ← hlastw']; exact hc)

/-- Witness for C6: the repaired form of segment `frame("a") ++ [99]`. -/
theorem c6_witness :
    Repair (Wal.mk [] (framesOf [NewWalData 1 [97]]) [] 1024 1) =
      .ok (Wal.mk [] (framesOf [NewWalData 1 [97]]) [] 1024 1) :=
  c6_repair_idempotent
    (Wal.mk [] (framesOf [NewWalData 1 [97]] ++ [99]) [] 1024 1)
    (Wal.mk [] (framesOf [NewWalData 1 [97]]) [] 1024 1)
    (by decide) (by decide)

/-! ## C10: `lastSequenceNo` after repairing the current segment -/

theorem writeData_lastSeq (w : Wal) (op : Op) :
    (writeData w op).lastSequenceNo = toInt32 (w.lastSequenceNo + 1) := by
  simp only [writeData, checkAndRotateLog, rotateLog]
  split_ifs <;> rfl

/-- C10: after `Repair`, `lastSequenceNo` is the sequence number of the
last record that survived in the current (highest) segment, and `0` when
nothing survived — in which case the next write is assigned sequence
number 1 regardless of earlier segments. -/
theorem c10_repair_sets_last_sequence (w w' : Wal)
    (hbytes : ∀ x ∈ w.curFlushed ++ w.buffer, x < 256)
    (hok : Repair w = .ok w') :
    ∃ rs, readSegmentBytes w'.curFlushed = .ok rs ∧
      w'.lastSequenceNo = ((rs.getLast?).map WalData.GetLastSequence).getD 0 ∧
      (rs = [] → w'.lastSequenceNo = 0 ∧
        ∀ op, (writeData w' op).lastSequenceNo = 1) := by
  simp only [Repair] at hok
  have hsync_last : (syncW w).lastSegmentNo = w.lastSegmentNo := rfl
  rw [hsync_last] at hok
  obtain ⟨hlen, _, _, hrange, _⟩ :=
    RepairLoop_spec w.lastSegmentNo 1 (syncW w) w' (by omega)
      (by rw [hsync_last]; omega) hok
  obtain ⟨ld, hld, hll⟩ := hrange w.lastSegmentNo
    (by simp [Wal.lastSegmentNo]) (by rw [hsync_last])
  obtain ⟨hseq', _⟩ := hll (by rw [hsync_last])
  have hsegsync : segmentOnDisk (syncW w) w.lastSegmentNo = w.curFlushed ++ w.buffer := by
    rw [show w.lastSegmentNo = (syncW w).lastSegmentNo from rfl, segmentOnDisk_last]
    rfl
  have hsegw' : segmentOnDisk w' w.lastSegmentNo = w'.curFlushed := by
    have : w'.lastSegmentNo = w.lastSegmentNo := by
      simp only [Wal.lastSegmentNo, hlen]
      rfl
    rw [← this, segmentOnDisk_last]
  rw [hsegsync, hsegw'] at hld
  obtain ⟨bodies, rest, hgood, hdecomp, hres1, hres2⟩ :=
    repairFramesAux_ok ((w.curFlushed ++ w.buffer).length + 1) (w.curFlushed ++ w.buffer)
      [] zeroWalData (w'.curFlushed, ld) hbytes (by omega) hld
  simp only [List.nil_append] at hres1 hres2
  refine ⟨recsOf bodies, ?_, ?_, ?_⟩
  · rw [hres1]
    exact readSegmentBytes_chunks bodies hgood
  · rw [hseq', hres2]
    cases hbo : (recsOf bodies).getLast? with
    | none => simp [zeroWalData, WalData.GetLastSequence]
    | some r => simp [WalData.GetLastSequence]
  · intro hrs
    have hempty : (recsOf bodies).getLast? = none := by
      rw [hrs]
      rfl
    have hz : w'.lastSequenceNo = 0 := by
      rw [hseq', hres2, hempty]
      rfl
    refine ⟨hz, ?_⟩
    intro op
    rw [writeData_lastSeq, hz]
    rfl

/-- Witness for C10: a current segment `frame("a") ++ [99]` with a stale
in-memory `lastSequenceNo = 5`; repair resets it to the surviving record's
sequence number 1. -/
theorem c10_witness :
    ∃ rs, readSegmentBytes (Wal.mk [] (framesOf [NewWalData 1 [97]]) [] 1024 1).curFlushed = .ok rs ∧
      (Wal.mk [] (framesOf [NewWalData 1 [97]]) [] 1024 1).lastSequenceNo =
        ((rs.getLast?).map WalData.GetLastSequence).getD 0 ∧
      (rs = [] → (Wal.mk [] (framesOf [NewWalData 1 [97]]) [] 1024 1).lastSequenceNo = 0 ∧
        ∀ op, (writeData (Wal.mk [] (framesOf [NewWalData 1 [97]]) [] 1024 1)
          op).lastSequenceNo = 1) :=
  c10_repair_sets_last_sequence
    (Wal.mk [] (framesOf [NewWalData 1 [97]] ++ [99]) [] 1024 5)
    (Wal.mk [] (framesOf [NewWalData 1 [97]]) [] 1024 1)
    (by decide) (by decide)

/-! ## C2: sequence numbers 1, 2, 3, … -/

theorem toInt32_eq_self (n : Int) (h1 : -(2 ^ 31 : Int) ≤ n) (h2 : n < 2 ^ 31) :
    toInt32 n = n := by
  unfold toInt32
  omega

theorem toInt32_toInt32_add (x y : Int) : toInt32 (toInt32 x + y) = toInt32 (x + y) := by
  unfold toInt32
  omega

theorem recordOfOp_seq (seq : Int) (op : Op) : (recordOfOp seq op).GetLastSequence = seq := by
  cases op <;> rfl

theorem runOps_lastSeq : ∀ (ops : List Op) (w : Wal),
    (runOps w ops).lastSequenceNo = runLast w.lastSequenceNo ops := by
  intro ops
  induction ops with
  | nil => intro w; rfl
  | cons op ops ih =>
    intro w
    simp only [runOps, runLast]
    rw [ih, writeData_lastSeq]

theorem runLast_eq (ops : List Op) : ∀ last : Int, 0 ≤ last →
    last + ops.length < 2 ^ 31 → runLast last ops = last + ops.length := by
  induction ops with
  | nil => intro last _ _; simp [runLast]
  | cons op ops ih =>
    intro last h0 hlt
    simp only [runLast, List.length_cons] at hlt ⊢
    rw [toInt32_eq_self (last + 1) (by omega) (by omega)]
    rw [ih (last + 1) (by omega) (by omega)]
    push_cast
    ring

theorem runRecs_seqs (ops : List Op) : ∀ last : Int, 0 ≤ last →
    last + ops.length < 2 ^ 31 →
    (runRecs last ops).map WalData.GetLastSequence =
      (List.range ops.length).map (fun i : Nat => last + (i : Int) + 1) := by
  induction ops with
  | nil => intro last _ _; simp [runRecs]
  | cons op ops ih =>
    intro last h0 hlt
    simp only [runRecs, List.length_cons, List.map_cons, recordOfOp_seq] at hlt ⊢
    rw [toInt32_eq_self (last + 1) (by omega) (by omega)]
    rw [ih (last + 1) (by omega) (by omega)]
    rw [List.range_succ_eq_map, List.map_cons, List.map_map]
    congr 1
    · push_cast
      ring
    · apply List.map_congr_left
      intro i _
      simp only [Function.comp_apply]
      push_cast
      ring

/-- C2 (amended): on a WAL opened on an empty directory, a trace of at
most `2^31 - 1` successful writes assigns sequence numbers `1, 2, 3, …`
in write order with no gaps (the records stored in the segments carry
exactly those numbers, and `lastSequenceNo` counts the writes); beyond
that the 32-bit counter wraps. -/
theorem c2_sequence_numbers (ds : List (List Nat)) (kb : Int)
    (hwf : ∀ d ∈ ds, (∀ b ∈ d, b < 256) ∧ d.length ≤ 2 ^ 28)
    (hn : ds.length < 2 ^ 31) :
    ∃ Qinit Qlast, Abs (runOps (initWal kb) (ds.map Op.write)) Qinit Qlast ∧
      (Qinit ++ [Qlast]).flatten = runRecs 0 (ds.map Op.write) ∧
      ((Qinit ++ [Qlast]).flatten).map WalData.GetLastSequence =
        (List.range ds.length).map (fun i : Nat => (i : Int) + 1) ∧
      (runOps (initWal kb) (ds.map Op.write)).lastSequenceNo = ds.length := by
  obtain ⟨Qinit, Qlast, hQ, hflat, hlast⟩ :=
    runOps_abs (ds.map Op.write) (initWal kb) [] [] (initWal_abs kb)
  have hinitseq : (initWal kb).lastSequenceNo = 0 := rfl
  rw [hinitseq] at hflat hlast
  simp only [List.flatten, List.append_nil, List.nil_append] at hflat
  refine ⟨Qinit, Qlast, hQ, hflat, ?_, ?_⟩
  · rw [hflat]
    rw [runRecs_seqs (ds.map Op.write) 0 (by omega) (by simp; omega)]
    simp
  · rw [runOps_lastSeq, hinitseq]
    rw [runLast_eq (ds.map Op.write) 0 (by omega) (by simp; omega)]
    simp

/-- Witness for C2 on the two-write trace `["a", "b"]`. -/
theorem c2_witness :
    ∃ Qinit Qlast, Abs (runOps (initWal 1) ([[97], [98]].map Op.write)) Qinit Qlast ∧
      (Qinit ++ [Qlast]).flatten = runRecs 0 ([[97], [98]].map Op.write) ∧
      ((Qinit ++ [Qlast]).flatten).map WalData.GetLastSequence =
        (List.range ([[97], [98]] : List (List Nat)).length).map (fun i : Nat => (i : Int) + 1) ∧
      (runOps (initWal 1) ([[97], [98]].map Op.write)).lastSequenceNo =
        ([[97], [98]] : List (List Nat)).length :=
  c2_sequence_numbers [[97], [98]] 1
    (by intro d hd; fin_cases hd <;> exact ⟨by decide, by decide⟩) (by decide)

theorem runLast_replicate (op : Op) :
    ∀ (n : Nat) (last : Int), -(2 ^ 31 : Int) ≤ last → last < 2 ^ 31 →
      runLast last (List.replicate n op) = toInt32 (last + n) := by
  intro n
  induction n with
  | zero =>
    intro last h1 h2
    simp [runLast, toInt32_eq_self last h1 h2]
  | succ n ih =>
    intro last h1 h2
    rw [List.replicate_succ]
    simp only [runLast]
    rw [ih (toInt32 (last + 1)) (toInt32_range _).1 (toInt32_range _).2]
    rw [toInt32_toInt32_add]
    congr 1
    push_cast
    ring

theorem runRecs_length (ops : List Op) : ∀ last : Int, (runRecs last ops).length = ops.length := by
  induction ops with
  | nil => intro last; rfl
  | cons op ops ih => intro last; simp [runRecs, ih]

theorem runRecs_replicate_getLast (op : Op) :
    ∀ (n : Nat) (last : Int), -(2 ^ 31 : Int) ≤ last → last < 2 ^ 31 →
      (runRecs last (List.replicate (n + 1) op)).getLast? =
        some (recordOfOp (toInt32 (last + n + 1)) op) := by
  intro n
  induction n with
  | zero =>
    intro last h1 h2
    simp [runRecs, List.replicate, List.getLast?]
  | succ n ih =>
    intro last h1 h2
    have hstep : runRecs last (List.replicate (n + 1 + 1) op) =
        recordOfOp (toInt32 (last + 1)) op ::
          runRecs (toInt32 (last + 1)) (List.replicate (n + 1) op) := by
      rw [List.replicate_succ]
      rfl
    rw [hstep]
    have hne : runRecs (toInt32 (last + 1)) (List.replicate (n + 1) op) ≠ [] := by
      intro h
      have := runRecs_length (List.replicate (n + 1) op) (toInt32 (last + 1))
      rw [h] at this
      simp at this
    obtain ⟨x, xs, hxx⟩ := List.exists_cons_of_ne_nil hne
    rw [hxx, List.getLast?_cons_cons, ← hxx]
    rw [ih (toInt32 (last + 1)) (toInt32_range _).1 (toInt32_range _).2]
    congr 2
    rw [show toInt32 (last + 1) + ↑n + 1 = toInt32 (last + 1) + (↑n + 1) by ring]
    rw [toInt32_toInt32_add]
    congr 1
    push_cast
    ring

/-- Counterexample for C2 as stated: after `2^31` successful writes the
`int32` counter wraps, so the `2^31`-th record is assigned sequence number
`-2^31`, not `2^31`, and monotonicity fails. -/
theorem c2_counterexample :
    (runOps (initWal 1) (List.replicate (2 ^ 31) (Op.write []))).lastSequenceNo = -(2 ^ 31) ∧
    (runRecs 0 (List.replicate (2 ^ 31) (Op.write []))).getLast? =
      some (recordOfOp (-(2 ^ 31)) (Op.write [])) ∧
    (recordOfOp (-(2 ^ 31)) (Op.write [])).GetLastSequence ≠ ((2 ^ 31 : Nat) : Int) := by
  refine ⟨?_, ?_, by decide⟩
  · rw [runOps_lastSeq]
    have hinitseq : (initWal 1).lastSequenceNo = 0 := rfl
    rw [hinitseq]
    rw [runLast_replicate (Op.write []) (2 ^ 31) 0 (by norm_num) (by norm_num)]
    decide
  · rw [show (2 ^ 31 : Nat) = (2 ^ 31 - 1) + 1 from by norm_num]
    rw [runRecs_replicate_getLast (Op.write []) (2 ^ 31 - 1) 0 (by norm_num) (by norm_num)]
    congr 1

/-! ## C3: the rotation condition -/

/-- C3 (amended, part 1): a write rotates to a new segment if and only if
the current segment's flushed on-disk size plus the frame length (4-byte
length prefix plus serialized record) exceeds `maxLogSize`; rotation
freezes the old segment (flushed bytes plus buffered tail) and starts an
empty one before the frame is written. -/
theorem c3_rotation_iff (w : Wal) (op : Op) :
    ((writeData w op).prevSegments ≠ w.prevSegments ↔
      (w.curFlushed.length : Int) +
        ((jsonMarshal (recordOfOp (toInt32 (w.lastSequenceNo + 1)) op)).length + 4) >
          w.maxLogSize) ∧
    ((writeData w op).prevSegments ≠ w.prevSegments →
      (writeData w op).prevSegments = w.prevSegments ++ [w.curFlushed ++ w.buffer]) := by
  simp only [writeData, checkAndRotateLog, rotateLog]
  set r := recordOfOp (toInt32 (w.lastSequenceNo + 1)) op with hr
  have hsz : (le4enc (jsonMarshal r).length).length = 4 := by simp [le4enc]
  split_ifs with hc
  · simp only at hc ⊢
    rw [hsz] at hc
    constructor
    · constructor
      · intro _
        push_cast at hc ⊢
        omega
      · intro _
        simp
    · intro _
      trivial
  · simp only at hc ⊢
    rw [hsz] at hc
    constructor
    · constructor
      · intro hne
        exact absurd rfl hne
      · intro hgt
        exfalso
        apply hc
        push_cast at hgt ⊢
        omega
    · intro hne
      exact absurd rfl hne

/-- Witness for C3's iff on a concrete state: an empty payload written to
a WAL whose current segment already holds 1020 flushed bytes with
`maxLogSize = 1024` rotates (frame length 55 > 4 remaining). -/
theorem c3_witness :
    ((writeData (Wal.mk [] (List.replicate 1020 0) [] 1024 0) (Op.write [])).prevSegments ≠
        (Wal.mk [] (List.replicate 1020 0) [] 1024 0).prevSegments ↔
      ((Wal.mk [] (List.replicate 1020 0) [] 1024 0).curFlushed.length : Int) +
        ((jsonMarshal (recordOfOp
            (toInt32 ((Wal.mk [] (List.replicate 1020 0) [] 1024 0).lastSequenceNo + 1))
            (Op.write []))).length + 4) >
          (Wal.mk [] (List.replicate 1020 0) [] 1024 0).maxLogSize) ∧
    ((writeData (Wal.mk [] (List.replicate 1020 0) [] 1024 0) (Op.write [])).prevSegments ≠
        (Wal.mk [] (List.replicate 1020 0) [] 1024 0).prevSegments →
      (writeData (Wal.mk [] (List.replicate 1020 0) [] 1024 0) (Op.write [])).prevSegments =
        (Wal.mk [] (List.replicate 1020 0) [] 1024 0).prevSegments ++
          [(Wal.mk [] (List.replicate 1020 0) [] 1024 0).curFlushed ++
            (Wal.mk [] (List.replicate 1020 0) [] 1024 0).buffer]) :=
  c3_rotation_iff (Wal.mk [] (List.replicate 1020 0) [] 1024 0) (Op.write [])

/-- Counterexample for C3's size-bound consequent: 24 empty-payload
writes with `maxKB = 1` never trigger rotation (the flushed size stays 0
while frames accumulate in the 4096-byte buffer), so after `Sync` the
single segment file holds 1313 bytes, exceeding
`maxLogSize + last frame size = 1024 + 56`. -/
theorem c3_counterexample :
    (syncW (runOps (initWal 1) (List.replicate 24 (Op.write [])))).prevSegments = [] ∧
    (syncW (runOps (initWal 1) (List.replicate 24 (Op.write [])))).maxLogSize = 1024 ∧
    (syncW (runOps (initWal 1) (List.replicate 24 (Op.write [])))).curFlushed.length = 1313 ∧
    (jsonMarshal (recordOfOp 24 (Op.write []))).length + 4 = 56 ∧
    1024 + 56 < 1313 := by decide

/-! ## C8: reads and the data directory

`readSegment` (`wal.go:194`) opens the segment file with
`os.O_CREATE|os.O_RDONLY`: when the file does not exist it is created
empty.  To observe this, the directory is modelled explicitly as a map
from segment number to file bytes, and each read returns the directory
after the call. -/

/-- The data directory: segment number ↦ segment file bytes. -/
def dirLookup (dir : List (Int × List Nat)) (n : Int) : Option (List Nat) :=
  match dir with
  | [] => none
  | (k, v) :: rest => if k = n then some v else dirLookup rest n

/-- `readSegment` (`wal.go:191`) against the directory: `os.OpenFile`
with `O_CREATE|O_RDONLY` creates a missing segment file empty, then the
frame walk runs on the file's bytes.  Returns the directory after the
call together with the result. -/
def readSegmentFS (dir : List (Int × List Nat)) (n : Int) :
    List (Int × List Nat) × Except WalErr (List WalData) :=
  match dirLookup dir n with
  | some bs => (dir, readSegmentBytes bs)
  | none => (dir ++ [(n, [])], readSegmentBytes [])

/-- `readData` (`wal.go:175`) against the directory: project payloads. -/
def readDataFS (dir : List (Int × List Nat)) (n : Int) :
    List (Int × List Nat) × Except WalErr (List (List Nat)) :=
  let p := readSegmentFS dir n
  (p.1, p.2.map (fun rs => rs.map WalData.GetData))

/-- The loop of `ReadFromSegment` (`wal.go:104`) against the directory,
reading `fuel` consecutive segments starting at `i`. -/
def ReadFromSegmentFSAux : Nat → Int → List (Int × List Nat) → List (List Nat) →
    List (Int × List Nat) × Except WalErr (List (List Nat))
  | 0, _, dir, acc => (dir, .ok acc)
  | n + 1, i, dir, acc =>
    let p := readDataFS dir i
    match p.2 with
    | .error e => (p.1, .error e)
    | .ok cur => ReadFromSegmentFSAux n (i + 1) p.1 (acc ++ cur)

/-- `ReadFromSegment` (`wal.go:93`) against the directory. -/
def ReadFromSegmentFS (dir : List (Int × List Nat)) (segmentNo lastSegmentNo : Int) :
    List (Int × List Nat) × Except WalErr (List (List Nat)) :=
  if segmentNo < 1 then (dir, .error .badSegmentNo)
  else ReadFromSegmentFSAux (lastSegmentNo + 1 - segmentNo).toNat segmentNo dir []

theorem dirLookup_append (dir : List (Int × List Nat)) (e : Int × List Nat)
    (k : Int) (v : List Nat) (h : dirLookup dir k = some v) :
    dirLookup (dir ++ [e]) k = some v := by
  induction dir with
  | nil => simp [dirLookup] at h
  | cons hd tl ih =>
    obtain ⟨a, b⟩ := hd
    simp only [dirLookup, List.cons_append] at h ⊢
    split_ifs at h ⊢ with hk
    · exact h
    · exact ih h

theorem readSegmentFS_preserves (dir : List (Int × List Nat)) (n k : Int) (v : List Nat)
    (h : dirLookup dir k = some v) : dirLookup (readSegmentFS dir n).1 k = some v := by
  cases hl : dirLookup dir n with
  | some bs =>
    simp only [readSegmentFS, hl]
    exact h
  | none =>
    simp only [readSegmentFS, hl]
    exact dirLookup_append dir (n, []) k v h

theorem readSegmentFS_present (dir : List (Int × List Nat)) (n : Int)
    (h : (dirLookup dir n).isSome) : (readSegmentFS dir n).1 = dir := by
  obtain ⟨bs, hbs⟩ := Option.isSome_iff_exists.mp h
  simp [readSegmentFS, hbs]

theorem ReadFromSegmentFSAux_preserves :
    ∀ (fuel : Nat) (i : Int) (dir : List (Int × List Nat)) (acc : List (List Nat))
      (k : Int) (v : List Nat), dirLookup dir k = some v →
      dirLookup (ReadFromSegmentFSAux fuel i dir acc).1 k = some v := by
  intro fuel
  induction fuel with
  | zero => intro i dir acc k v h; exact h
  | succ n ih =>
    intro i dir acc k v h
    have hp := readSegmentFS_preserves dir i k v h
    simp only [ReadFromSegmentFSAux, readDataFS]
    cases hres : (readSegmentFS dir i).2 with
    | error e =>
      simp only [hres, except_map_error]
      exact hp
    | ok recs =>
      simp only [hres, except_map_ok]
      exact ih (i + 1) _ _ k v hp

theorem ReadFromSegmentFSAux_present :
    ∀ (fuel : Nat) (i : Int) (dir : List (Int × List Nat)) (acc : List (List Nat)),
      (∀ j : Int, i ≤ j → j < i + fuel → (dirLookup dir j).isSome) →
      (ReadFromSegmentFSAux fuel i dir acc).1 = dir := by
  intro fuel
  induction fuel with
  | zero => intro i dir acc _; rfl
  | succ n ih =>
    intro i dir acc h
    have hi : (dirLookup dir i).isSome := h i le_rfl (by push_cast; omega)
    have hfs1 : (readSegmentFS dir i).1 = dir := readSegmentFS_present dir i hi
    simp only [ReadFromSegmentFSAux, readDataFS]
    cases hres : (readSegmentFS dir i).2 with
    | error e =>
      simp only [hres, except_map_error]
      exact hfs1
    | ok recs =>
      simp only [hres, except_map_ok]
      rw [hfs1]
      exact ih (i + 1) dir _ (fun j hj1 hj2 => h j (by omega) (by push_cast at hj2 ⊢; omega))

/-- C8 (corrected): the read loop never destroys or rewrites an existing
segment file (every present directory entry is preserved unchanged), and
it leaves the directory exactly unchanged when every segment file in the
requested range exists; but when a requested segment file is missing,
`O_CREATE` creates it empty, so the directory does change (see the
counterexample).  The in-memory `Wal` fields are untouched by reads,
which in the embedding return only data. -/
theorem c8_reads_and_directory (dir : List (Int × List Nat)) (n last : Int) :
    (∀ k v, dirLookup dir k = some v →
      dirLookup (ReadFromSegmentFS dir n last).1 k = some v) ∧
    ((∀ j : Int, n ≤ j → j ≤ last → (dirLookup dir j).isSome) →
      (ReadFromSegmentFS dir n last).1 = dir) := by
  constructor
  · intro k v h
    unfold ReadFromSegmentFS
    split_ifs with h1
    · exact h
    · exact ReadFromSegmentFSAux_preserves _ _ _ _ k v h
  · intro h
    unfold ReadFromSegmentFS
    split_ifs with h1
    · rfl
    · refine ReadFromSegmentFSAux_present _ _ _ _ (fun j hj1 hj2 => h j hj1 ?_)
      omega

/-- Witness for C8 on a directory holding the single (empty) segment 1:
the entry survives the read and the directory is unchanged. -/
theorem c8_witness :
    dirLookup (ReadFromSegmentFS [(1, [])] 1 1).1 1 = some [] ∧
    (ReadFromSegmentFS [(1, [])] 1 1).1 = [(1, [])] :=
  ⟨(c8_reads_and_directory [(1, [])] 1 1).1 1 [] (by decide),
   (c8_reads_and_directory [(1, [])] 1 1).2
     (by
       intro j h1 h2
       have hj : j = 1 := le_antisymm h2 h1
       subst hj
       decide)⟩

/-- Counterexample for C8 as stated: reading segment 1 of an empty
directory creates `wal@1.db` as an empty file — the directory is not left
unchanged when the segment file does not exist. -/
theorem c8_counterexample :
    (ReadFromSegmentFS [] 1 1).1 = [(1, [])] ∧
    (ReadFromSegmentFS [] 1 1).2 = .ok [] ∧
    ([(1, [])] : List (Int × List Nat)) ≠ [] := by decide

/-! ## C9: opening a directory with non-matching file names

File names are byte strings.  `getSegmentNumberFromFile` (`wal.go:465`)
splits on the first `'@'` (64) and then the first `'.'` (46) and runs
`strconv.Atoi` on the middle part, panicking when any step fails; it
never checks the `wal` prefix or the `db` extension.  Panics are
modelled as `none`. -/

/-- `strings.SplitN(s, sep, 2)` accumulator. -/
def splitN2Aux (sep : Nat) : List Nat → List Nat → List (List Nat)
  | acc, [] => [acc.reverse]
  | acc, c :: rest =>
    if c = sep then [acc.reverse, rest] else splitN2Aux sep (c :: acc) rest

/-- `strings.SplitN(s, sep, 2)`: `[before, after]` at the first separator,
or `[s]` when the separator does not occur. -/
def splitN2 (sep : Nat) (s : List Nat) : List (List Nat) := splitN2Aux sep [] s

/-- Decimal digit run of `strconv.Atoi`: fails on any non-digit. -/
def atoiDigits : List Nat → Nat → Option Nat
  | [], acc => some acc
  | c :: rest, acc =>
    if 48 ≤ c ∧ c ≤ 57 then atoiDigits rest (acc * 10 + (c - 48)) else none

/-- `strconv.Atoi`: optional sign, at least one digit, 64-bit `int`
range. -/
def goAtoi (s : List Nat) : Option Int :=
  match s with
  | [] => none
  | 43 :: rest =>
    (match rest with | [] => none | _ => atoiDigits rest 0).bind
      (fun m => if (m : Int) ≤ 2 ^ 63 - 1 then some (m : Int) else none)
  | 45 :: rest =>
    (match rest with | [] => none | _ => atoiDigits rest 0).bind
      (fun m => if -(2 ^ 63 : Int) ≤ -(m : Int) then some (-(m : Int)) else none)
  | _ =>
    (atoiDigits s 0).bind
      (fun m => if (m : Int) ≤ 2 ^ 63 - 1 then some (m : Int) else none)

/-- `getSegmentNumberFromFile` (`wal.go:465`): split on the first `'@'`,
then the first `'.'`, `Atoi` the middle, truncate to `int32`; any failure
panics (`none`).  The `wal` prefix and `db` extension are not checked. -/
def getSegmentNumberFromFile (fileName : List Nat) : Option Int :=
  match splitN2 64 fileName with
  | [_, part1] =>
    match splitN2 46 part1 with
    | [segStr, _] => (goAtoi segStr).map toInt32
    | _ => none
  | _ => none

/-- `getLogFileName` (`wal.go:484`): the bytes of `wal@<n>.db`. -/
def getLogFileName (segmentNo : Int) : List Nat :=
  [119, 97, 108, 64] ++ intDec segmentNo ++ [46, 100, 98]

/-- The loop of `getLastLogFile` (`wal.go:373`): fold over the directory
entries keeping the file with the strictly largest segment number; a
file name that fails to parse panics (`none`). -/
def getLastLogFileAux : List (List Nat) → List Nat × Int → Option (List Nat × Int)
  | [], st => some st
  | f :: rest, st =>
    match getSegmentNumberFromFile f with
    | none => none
    | some seg =>
      getLastLogFileAux rest (if seg > st.2 then (f, seg) else st)

/-- `getLastLogFile` (`wal.go:363`): scan the entries (`maxSegment`
starts at 0); with no entries at all, fall back to `wal@1.db` and
segment 1. -/
def getLastLogFile (entries : List (List Nat)) : Option (List Nat × Int) :=
  match entries with
  | [] => some (getLogFileName 1, 1)
  | _ => getLastLogFileAux entries ([], 0)

theorem getLastLogFileAux_max (entries : List (List Nat)) :
    ∀ (st : List Nat × Int),
      (∀ f ∈ entries, (getSegmentNumberFromFile f).isSome) →
      ∃ req, getLastLogFileAux entries st =
        some (req, (entries.map (fun f => (getSegmentNumberFromFile f).getD 0)).foldl max st.2) := by
  induction entries with
  | nil => intro st _; exact ⟨st.1, by simp [getLastLogFileAux]⟩
  | cons f rest ih =>
    intro st h
    obtain ⟨s, hs⟩ := Option.isSome_iff_exists.mp (h f (by simp))
    simp only [getLastLogFileAux, hs]
    obtain ⟨req, hreq⟩ :=
      ih (if s > st.2 then (f, s) else st) (fun x hx => h x (by simp [hx]))
    refine ⟨req, ?_⟩
    rw [hreq]
    have hsnd : (if s > st.2 then (f, s) else st).2 = max st.2 s := by
      split_ifs with hgt
      · exact (max_eq_right (le_of_lt hgt)).symm
      · exact (max_eq_left (not_lt.mp hgt)).symm
    rw [hsnd]
    simp [hs]

/-- C9 (corrected): opening the WAL completes normally exactly on
directories all of whose file names parse under `getSegmentNumberFromFile`
(contain an `'@'`, later a `'.'`, with an integer between), and then the
selected segment number is the maximum parsed number (0 when the fold
never improves, 1 for an empty directory).  Non-matching names are not
ignored: any unparsable name panics (see the counterexample), and the
`wal`/`db` prefix and extension are never consulted. -/
theorem c9_open_requires_parsable_names (entries : List (List Nat))
    (h : ∀ f ∈ entries, (getSegmentNumberFromFile f).isSome) :
    ∃ req, getLastLogFile entries =
      some (req, (entries.map (fun f => (getSegmentNumberFromFile f).getD 0)).foldl max
        (if entries.isEmpty then 1 else 0)) := by
  cases entries with
  | nil => exact ⟨getLogFileName 1, by simp [getLastLogFile]⟩
  | cons f rest =>
    obtain ⟨req, hreq⟩ := getLastLogFileAux_max (f :: rest) ([], 0) h
    exact ⟨req, by simpa [getLastLogFile] using hreq⟩

/-- Witness for C9 on the directory `["wal@2.db"]`. -/
theorem c9_witness :
    ∃ req, getLastLogFile [getLogFileName 2] =
      some (req, ([getLogFileName 2].map (fun f => (getSegmentNumberFromFile f).getD 0)).foldl max
        (if ([getLogFileName 2] : List (List Nat)).isEmpty then 1 else 0)) :=
  c9_open_requires_parsable_names [getLogFileName 2] (by decide)

/-- Counterexample for C9 as stated: a directory containing a file named
`garbage` makes `getLastLogFile` panic instead of ignoring it, and a file
named `xx@7.txt` — which does not match `wal@<N>.db` — is not ignored
either: it parses to segment 7 and takes part in the selection. -/
theorem c9_counterexample :
    getLastLogFile [[103, 97, 114, 98, 97, 103, 101]] = none ∧
    getSegmentNumberFromFile [120, 120, 64, 55, 46, 116, 120, 116] = some 7 ∧
    getLastLogFile [[120, 120, 64, 55, 46, 116, 120, 116]] =
      some ([120, 120, 64, 55, 46, 116, 120, 116], 7) := by decide

/-! ## C4: reading from the last checkpoint

Op-level mirror of the checkpoint scan: the payload an operation writes,
whether it is a checkpoint, and the operations strictly after the last
checkpoint of a trace. -/

/-- The payload a trace operation writes (`[]` for a checkpoint). -/
def payloadOf : Op → List Nat
  | .write d => d
  | .checkpoint => []

/-- Whether a trace operation is a `create_checkpoint`. -/
def isCkptOp : Op → Bool
  | .write _ => false
  | .checkpoint => true

/-- Operations strictly after the last checkpoint of a trace, or `none`
when the trace has no checkpoint. -/
def tailAfterCkptOps : List Op → Option (List Op)
  | [] => none
  | op :: rest =>
    match tailAfterCkptOps rest with
    | some t => some t
    | none => if isCkptOp op then some rest else none

theorem recordOfOp_IsCheckpoint (seq : Int) (op : Op) :
    (recordOfOp seq op).IsCheckpoint = isCkptOp op := by
  cases op <;> rfl

theorem recordOfOp_GetData (seq : Int) (op : Op) :
    (recordOfOp seq op).GetData = payloadOf op := by
  cases op <;> rfl

theorem runRecs_getData (ops : List Op) :
    ∀ last : Int, (runRecs last ops).map WalData.GetData = ops.map payloadOf := by
  induction ops with
  | nil => intro last; rfl
  | cons op rest ih =>
    intro last
    simp only [runRecs, List.map_cons, recordOfOp_GetData, ih]

theorem tailAfterCkpt_cons_some (r : WalData) (rest t : List WalData)
    (h : tailAfterCkpt rest = some t) : tailAfterCkpt (r :: rest) = some t := by
  unfold tailAfterCkpt
  rw [h]

theorem tailAfterCkpt_cons_none (r : WalData) (rest : List WalData)
    (h : tailAfterCkpt rest = none) :
    tailAfterCkpt (r :: rest) = if r.IsCheckpoint then some rest else none := by
  unfold tailAfterCkpt
  rw [h]

theorem tailAfterCkpt_append_some (A B : List WalData) (t : List WalData)
    (h : tailAfterCkpt B = some t) : tailAfterCkpt (A ++ B) = some t := by
  induction A with
  | nil => simpa using h
  | cons r A' ih =>
    rw [List.cons_append, tailAfterCkpt_cons_some r (A' ++ B) t ih]

theorem tailAfterCkpt_append_none (A B : List WalData)
    (h : tailAfterCkpt B = none) :
    tailAfterCkpt (A ++ B) = (tailAfterCkpt A).map (fun u => u ++ B) := by
  induction A with
  | nil => simp [tailAfterCkpt, h]
  | cons r A' ih =>
    rw [List.cons_append]
    cases hA : tailAfterCkpt A' with
    | some u =>
      have hAB : tailAfterCkpt (A' ++ B) = some (u ++ B) := by
        rw [ih, hA]
        rfl
      rw [tailAfterCkpt_cons_some r (A' ++ B) _ hAB, tailAfterCkpt_cons_some r A' u hA]
      rfl
    | none =>
      have hAB : tailAfterCkpt (A' ++ B) = none := by
        rw [ih, hA]
        rfl
      rw [tailAfterCkpt_cons_none r (A' ++ B) hAB, tailAfterCkpt_cons_none r A' hA]
      by_cases hf : r.IsCheckpoint = true
      · simp [hf]
      · simp [hf]

theorem tailAfterCkpt_eq_none (rs : List WalData) :
    tailAfterCkpt rs = none ↔ ∀ r ∈ rs, r.IsCheckpoint = false := by
  induction rs with
  | nil => simp [tailAfterCkpt]
  | cons r rest ih =>
    cases h : tailAfterCkpt rest with
    | some t =>
      rw [tailAfterCkpt_cons_some r rest t h]
      constructor
      · intro hc; cases hc
      · intro hall
        have hnone := ih.mpr (fun x hx => hall x (by simp [hx]))
        rw [hnone] at h
        cases h
    | none =>
      rw [tailAfterCkpt_cons_none r rest h]
      constructor
      · intro hc
        by_cases hf : r.IsCheckpoint = true
        · rw [if_pos hf] at hc; cases hc
        · intro x hx
          rcases List.mem_cons.mp hx with rfl | hx'
          · simpa using hf
          · exact ih.mp h x hx'
      · intro hall
        rw [if_neg (by simp [hall r (by simp)])]

theorem tailAfterCkptOps_cons_some (op : Op) (rest t : List Op)
    (h : tailAfterCkptOps rest = some t) : tailAfterCkptOps (op :: rest) = some t := by
  unfold tailAfterCkptOps
  rw [h]

theorem tailAfterCkptOps_cons_none (op : Op) (rest : List Op)
    (h : tailAfterCkptOps rest = none) :
    tailAfterCkptOps (op :: rest) = if isCkptOp op then some rest else none := by
  unfold tailAfterCkptOps
  rw [h]

theorem tailAfterCkptOps_none (ops : List Op) (h : ∀ op ∈ ops, isCkptOp op = false) :
    tailAfterCkptOps ops = none := by
  induction ops with
  | nil => rfl
  | cons op rest ih =>
    rw [tailAfterCkptOps_cons_none op rest (ih (fun x hx => h x (by simp [hx])))]
    rw [if_neg (by simp [h op (by simp)])]

/-- Checkpoint tails of the ghost record list match the op-level tails,
payload for payload. -/
theorem tailAfterCkpt_runRecs (ops : List Op) :
    ∀ last : Int, (tailAfterCkpt (runRecs last ops)).map (List.map WalData.GetData) =
      (tailAfterCkptOps ops).map (List.map payloadOf) := by
  induction ops with
  | nil => intro last; rfl
  | cons op rest ih =>
    intro last
    simp only [runRecs]
    cases hro : tailAfterCkptOps rest with
    | some t' =>
      have hmap := ih (toInt32 (last + 1))
      rw [hro] at hmap
      cases hrr : tailAfterCkpt (runRecs (toInt32 (last + 1)) rest) with
      | none => rw [hrr] at hmap; simp at hmap
      | some t =>
        rw [hrr] at hmap
        rw [tailAfterCkpt_cons_some _ _ t hrr, tailAfterCkptOps_cons_some op rest t' hro]
        simpa using hmap
    | none =>
      have hmap := ih (toInt32 (last + 1))
      rw [hro] at hmap
      have hrr : tailAfterCkpt (runRecs (toInt32 (last + 1)) rest) = none := by
        cases hrr : tailAfterCkpt (runRecs (toInt32 (last + 1)) rest) with
        | none => rfl
        | some t => rw [hrr] at hmap; simp at hmap
      rw [tailAfterCkpt_cons_none _ _ hrr, tailAfterCkptOps_cons_none op rest hro,
        recordOfOp_IsCheckpoint]
      cases hop : isCkptOp op with
      | false => simp
      | true => simp [runRecs_getData]

/-- The downward scan of `ReadFromLastCheckpointAux` over segments whose
images decode to the groups of `L`: starting at segment `k` with no
checkpoint below it... (the segments above `k` hold no checkpoint), the
result is the tail after the last checkpoint of segments `1..k` (all of
them when there is none) followed by the later segments' records. -/
theorem ReadFromLastCheckpointAux_scan (w : Wal) (L : List (List WalData))
    (hseg : ∀ j : Nat, j < L.length → segmentOnDisk w (j + 1) = framesOf (L.getD j []))
    (hgood : ∀ r ∈ L.flatten, goodRec r)
    (hlen : w.lastSegmentNo = L.length) :
    ∀ k : Nat, k ≤ L.length →
      (∀ r ∈ (L.drop k).flatten, r.IsCheckpoint = false) →
      ReadFromLastCheckpointAux w k =
        .ok (((tailAfterCkpt ((L.take k).flatten)).getD ((L.take k).flatten) ++
          (L.drop k).flatten).map WalData.GetData) := by
  intro k
  induction k with
  | zero =>
    intro _ _
    have h0 := ReadFromSegment_one_abs w L hseg hgood hlen
    simp only [ReadFromLastCheckpointAux]
    rw [h0]
    simp [tailAfterCkpt]
  | succ i ih =>
    intro hk hnc
    have hilt : i < L.length := by omega
    have hgd : L.getD i [] = L[i] := by
      rw [List.getD_eq_getElem?_getD, List.getElem?_eq_getElem hilt]
      rfl
    have hgood_i : ∀ r ∈ L.getD i [], goodRec r := by
      intro r hr
      rw [hgd] at hr
      exact hgood r (List.mem_flatten.mpr ⟨L[i], List.getElem_mem hilt, hr⟩)
    have hstep := hseg i hilt
    have hdropsplit : (L.drop i).flatten = L[i] ++ (L.drop (i + 1)).flatten := by
      rw [List.drop_eq_getElem_cons hilt, List.flatten_cons]
    have htake : (L.take (i + 1)).flatten = (L.take i).flatten ++ L[i] := by
      rw [List.take_succ, List.getElem?_eq_getElem hilt]
      simp only [Option.toList_some, List.flatten_append, List.flatten_cons, List.flatten_nil,
        List.append_nil]
    simp only [ReadFromLastCheckpointAux, hstep,
      readSegmentBytes_framesOf _ hgood_i, except_bind_ok]
    cases hts : tailAfterCkpt (L.getD i []) with
    | some t =>
      have hrest := ReadFromSegmentAux_abs (w.lastSegmentNo - (i + 1)) (i + 2) w L hseg hgood
        (by omega) (by omega)
      rw [hrest]
      have hta : tailAfterCkpt ((L.take (i + 1)).flatten) = some t := by
        rw [htake]
        exact tailAfterCkpt_append_some _ _ _ (hgd ▸ hts)
      rw [hta]
      simp [List.map_append]
    | none =>
      have hnc_i : ∀ r ∈ L[i], r.IsCheckpoint = false :=
        (tailAfterCkpt_eq_none L[i]).mp (hgd ▸ hts)
      have hnc' : ∀ r ∈ (L.drop i).flatten, r.IsCheckpoint = false := by
        intro r hr
        rw [hdropsplit] at hr
        rcases List.mem_append.mp hr with hr1 | hr2
        · exact hnc_i r hr1
        · exact hnc r hr2
      rw [ih (by omega) hnc']
      have hta : tailAfterCkpt ((L.take (i + 1)).flatten) =
          (tailAfterCkpt ((L.take i).flatten)).map (fun u => u ++ L[i]) := by
        rw [htake]
        exact tailAfterCkpt_append_none _ _ ((tailAfterCkpt_eq_none _).mpr hnc_i)
      rw [hta]
      cases hA : tailAfterCkpt ((L.take i).flatten) with
      | some u =>
        simp only [Option.map_some', Option.getD_some, hdropsplit, List.append_assoc]
      | none =>
        simp only [Option.map_none', Option.getD_none, htake, hdropsplit, List.append_assoc]

/-- C4: after any trace of writes and (modelled) checkpoints followed by
`Sync`, `read_from_last_checkpoint` returns exactly the payloads of the
operations strictly after the most recent checkpoint, in write order
across all later segments (all payloads when the trace has no
checkpoint); and when no checkpoint operation occurred — so no checkpoint
record exists in any segment — its result is that of
`read_from_segment(1)`. -/
theorem c4_read_from_last_checkpoint (ops : List Op) (kb : Int)
    (hwf : ∀ op ∈ ops, WfOp op) :
    ReadFromLastCheckpoint (syncW (runOps (initWal kb) ops)) =
      .ok (((tailAfterCkptOps ops).getD ops).map payloadOf) ∧
    ((∀ op ∈ ops, isCkptOp op = false) →
      ReadFromLastCheckpoint (syncW (runOps (initWal kb) ops)) =
        ReadFromSegment (syncW (runOps (initWal kb) ops)) 1) := by
  obtain ⟨Qinit, Qlast, hQ, hflat, _⟩ :=
    runOps_abs ops (initWal kb) [] [] (initWal_abs kb)
  have hinitseq : (initWal kb).lastSequenceNo = 0 := rfl
  rw [hinitseq] at hflat
  simp only [List.flatten, List.append_nil, List.nil_append] at hflat
  set w := syncW (runOps (initWal kb) ops) with hw
  have hQs : Abs w Qinit Qlast := syncW_abs _ _ _ hQ
  have hbuf : w.buffer = [] := rfl
  set L := Qinit ++ [Qlast] with hL
  have hseg := segmentOnDisk_all w Qinit Qlast hQs hbuf
  have hgood : ∀ r ∈ L.flatten, goodRec r := by
    rw [hflat]
    exact runRecs_good ops 0 hwf
  have hlen : w.lastSegmentNo = L.length := by
    rw [lastSegmentNo_abs w Qinit Qlast hQs]
    simp [hL]
  have hscan := ReadFromLastCheckpointAux_scan w L hseg hgood hlen L.length le_rfl
    (by simp)
  simp only [List.take_length, List.drop_length, List.flatten_nil, List.append_nil] at hscan
  have hmain : ReadFromLastCheckpoint w =
      .ok (((tailAfterCkpt (runRecs 0 ops)).getD (runRecs 0 ops)).map WalData.GetData) := by
    rw [ReadFromLastCheckpoint, hlen, hscan, hflat]
  have htrans : ((tailAfterCkpt (runRecs 0 ops)).getD (runRecs 0 ops)).map WalData.GetData =
      ((tailAfterCkptOps ops).getD ops).map payloadOf := by
    have ht := tailAfterCkpt_runRecs ops 0
    cases hro : tailAfterCkptOps ops with
    | some t' =>
      rw [hro] at ht
      cases hrr : tailAfterCkpt (runRecs 0 ops) with
      | none => rw [hrr] at ht; simp at ht
      | some t =>
        rw [hrr] at ht
        simp only [Option.map_some', Option.some.injEq] at ht
        simp [ht]
    | none =>
      rw [hro] at ht
      have hrr : tailAfterCkpt (runRecs 0 ops) = none := by
        cases hrr : tailAfterCkpt (runRecs 0 ops) with
        | none => rfl
        | some t => rw [hrr] at ht; simp at ht
      rw [hrr]
      simp [runRecs_getData]
  constructor
  · rw [hmain, htrans]
  · intro hnone
    have h1 := ReadFromSegment_one_abs w L hseg hgood hlen
    rw [hmain, htrans, h1, tailAfterCkptOps_none ops hnone, hflat]
    simp [runRecs_getData]

/-- Witness for C4 on the trace `write "1"; create_checkpoint; write "2"`:
the read returns exactly the payloads after the checkpoint. -/
theorem c4_witness :
    ReadFromLastCheckpoint
        (syncW (runOps (initWal 1) [Op.write [1], Op.checkpoint, Op.write [2]])) =
      .ok (((tailAfterCkptOps [Op.write [1], Op.checkpoint, Op.write [2]]).getD
        [Op.write [1], Op.checkpoint, Op.write [2]]).map payloadOf) ∧
    ((∀ op ∈ [Op.write [1], Op.checkpoint, Op.write [2]], isCkptOp op = false) →
      ReadFromLastCheckpoint
          (syncW (runOps (initWal 1) [Op.write [1], Op.checkpoint, Op.write [2]])) =
        ReadFromSegment
          (syncW (runOps (initWal 1) [Op.write [1], Op.checkpoint, Op.write [2]])) 1) :=
  c4_read_from_last_checkpoint [Op.write [1], Op.checkpoint, Op.write [2]] 1
    (by intro op hop; fin_cases hop <;> first | trivial | exact ⟨by decide, by decide⟩)

end GoWal
